import Mathlib

/-!
# Verification of the tabular data pipeline (`tabular_loader.js`)

Shallow embedding of the deterministic tabular pipeline: seeded LCG shuffling,
stratified splitting, median imputation, target winsorization, out-of-fold
target encoding, robust (median/MAD) scaling and final assembly.

Modelling conventions:
* JavaScript numbers are modelled by `ℚ`; `NaN` (a non-finite value) is
  modelled by `Option ℚ` with `none` for `NaN`.
* A cell of a row carries its raw string together with `num`, the value of
  JavaScript `Number(raw)` when that is finite (`none` otherwise); numeric
  parsing itself is external to the verified core.
* `Math.log1p` is strictly increasing and injective on its finite domain
  `(-1, ∞)`; the embedding carries its argument (the clipped target) in place
  of the logarithm and records finiteness (`argument > -1`) exactly.  No claim
  inspects the numeric value of the logarithm.
* JavaScript `Array.prototype.sort` is stable (ES2019); it is modelled by a
  stable insertion sort on the comparison key.
-/

/- Batteries marks the arithmetic of `Rat` `irreducible`, which blocks the
evaluation of concrete pipeline runs inside `decide`; restore the default
transparency for this development. -/
attribute [local semireducible] Rat.add Rat.mul Rat.sub Rat.inv

/-- A cell of a row: the raw string plus the finite value of `Number(raw)`,
if any (`none` models `NaN`/non-finite). -/
structure Cell where
  raw : String
  num : Option ℚ
deriving DecidableEq

/-- A row is a finite map from column names to cells (JS object). -/
def Row : Type := List (String × Cell)

instance : DecidableEq Row := by unfold Row; infer_instance

/-- `r[h]` for a JS object `r`: `none` models `undefined`. -/
def getCell (r : Row) (h : String) : Option Cell :=
  (r.find? (fun p => p.1 == h)).map (fun p => p.2)

/-- `isNumeric(v)` from the source: `false` for `undefined`/`''`/`'?'`,
otherwise finiteness of `Number(v)`. -/
def isNumericC (c : Cell) : Bool :=
  (c.raw != "") && (c.raw != "?") && c.num.isSome

/-- The finite numeric reading of cell `h` of row `r`
(`isNumeric(r[h]) ? Number(r[h]) : NaN`). -/
def numValOf (r : Row) (h : String) : Option ℚ :=
  match getCell r h with
  | some c => if isNumericC c then c.num else none
  | none => none

/-- The categorical key of cell `h` of row `r`:
`(r[h] && r[h] !== '?') ? r[h] : '__NA__'`. -/
def catKeyOf (r : Row) (h : String) : String :=
  match getCell r h with
  | some c => if (c.raw != "") && (c.raw != "?") then c.raw else "__NA__"
  | none => "__NA__"

/-! ## Deterministic sequence generator (`shuffleWithSeed`'s `rnd`) -/

/-- One LCG step: `seed = (seed*1664525 + 1013904223) >>> 0`. -/
def dsgNext (s : ℕ) : ℕ := (s * 1664525 + 1013904223) % 4294967296

/-- The value drawn from a state: `state / 2^32 ∈ [0,1)`. -/
def dsgVal (s : ℕ) : ℚ := (s : ℚ) / 4294967296

/-- The chain of successive states drawn from `seed` (one per element). -/
def dsgStates (seed : ℕ) : ℕ → List ℕ
  | 0 => []
  | n + 1 => dsgNext seed :: dsgStates (dsgNext seed) n

/-- The sort keys used by one permutation: one chained draw per element. -/
def dsgKeys (seed : ℕ) (n : ℕ) : List ℚ := (dsgStates seed n).map dsgVal

instance decRelKeyFst {α : Type} :
    DecidableRel (fun (p q : ℚ × α) => p.1 ≤ q.1) :=
  fun p q => inferInstanceAs (Decidable (p.1 ≤ q.1))

/-- `shuffleWithSeed`: key every element with a chained DSG draw and
stable-sort by key ascending. -/
def shuffleWithSeed {α : Type} (arr : List α) (seed : ℕ) : List α :=
  (List.insertionSort (fun (p q : ℚ × α) => p.1 ≤ q.1)
    ((dsgKeys seed arr.length).zip arr)).map (fun p => p.2)

/-! ## Stratified split -/

/-- Key of row `i` of `rows` under stratification column `key`. -/
def rowKey (rows : List Row) (key : String) (i : ℕ) : String :=
  catKeyOf (rows.getD i []) key

/-- Append index `i` to the group of key `k`, creating the group at the end
if absent (JS `Map` insertion order). -/
def addToGroups (g : List (String × List ℕ)) (k : String) (i : ℕ) :
    List (String × List ℕ) :=
  match g with
  | [] => [(k, [i])]
  | (k', l) :: rest =>
    if k' == k then (k', l ++ [i]) :: rest else (k', l) :: addToGroups rest k i

/-- Group the row indices by stratification key, in insertion order. -/
def groupsOf (rows : List Row) (key : String) : List (String × List ℕ) :=
  (List.range rows.length).foldl
    (fun g i => addToGroups g (rowKey rows key i) i) []

/-- `cut = Math.max(1, Math.floor(groupSize * frac))`. -/
def cutOf (len : ℕ) (frac : ℚ) : ℕ := (max 1 ⌊(len : ℚ) * frac⌋).toNat

/-- `stratifiedSplit`: per group, shuffle with the (shared) seed, first
`cut` indices to train, remainder to test. -/
def stratifiedSplit (rows : List Row) (frac : ℚ) (seed : ℕ) (key : String) :
    List ℕ × List ℕ :=
  let gs := groupsOf rows key
  (gs.flatMap
     (fun g => (shuffleWithSeed g.2 seed).take (cutOf g.2.length frac)),
   gs.flatMap
     (fun g => (shuffleWithSeed g.2 seed).drop (cutOf g.2.length frac)))

/-! ## Median / quantile / robust statistics helpers -/

/-- Numeric ascending sort (`.sort((a,b)=>a-b)`). -/
def sortQ (l : List ℚ) : List ℚ := List.insertionSort (· ≤ ·) l

/-- Rank-based median of an already sorted list, interpolated on even
counts (`mid = ⌊n/2⌋`; odd: `s[mid]`; even: `(s[mid-1]+s[mid])/2`). -/
def medianSorted (s : List ℚ) : ℚ :=
  let mid := s.length / 2
  if s.length % 2 = 1 then s.getD mid 0
  else (s.getD (mid - 1) 0 + s.getD mid 0) / 2

/-- Median of a list of rationals. -/
def medianQ (l : List ℚ) : ℚ := medianSorted (sortQ l)

/-- `(median, scale)` of a numeric column. -/
structure RStats where
  median : ℚ
  scale : ℚ
deriving DecidableEq

/-- `robustStats`: interpolated median, `scale = 1.4826*MAD || 1`
(the JS `||` replaces a zero scale by `1`).  On the empty list the JS code
produces a `NaN` median; the pipeline below never passes an empty list
(the train partition of a non-empty input is non-empty). -/
def robustStats (arr : List ℚ) : RStats :=
  let s := sortQ arr
  let median := medianSorted s
  let absDev := sortQ (s.map (fun x => |x - median|))
  let mad := medianSorted absDev
  { median := median
    scale := if (14826 / 10000 : ℚ) * mad = 0 then 1
             else (14826 / 10000 : ℚ) * mad }

/-- Linear-interpolation quantile (`quantile(a, q)`); `none` models the
`NaN` produced on an empty input. -/
def quantile (a : List ℚ) (q : ℚ) : Option ℚ :=
  match a with
  | [] => none
  | _ =>
    let s := sortQ a
    let p := ((a.length : ℚ) - 1) * q
    let k := (⌊p⌋).toNat
    let d := p - (k : ℚ)
    some (s.getD k 0 + d * (s.getD (k + 1) (s.getD k 0) - s.getD k 0))

/-- `clip(v, lo, hi) = Math.min(hi, Math.max(lo, v))`. -/
def clip (v lo hi : ℚ) : ℚ := min hi (max lo v)

/-! ## Schema and seeds -/

/-- Per-categorical-column code map (`{ map, size }`). -/
structure CatMap where
  map : List (String × ℕ)
  size : ℕ

/-- The three pipeline seeds. -/
structure Seeds where
  split : ℕ
  kfold : ℕ
  trainOrder : ℕ

/-- The schema consumed by `buildTabularTensors`.  `catMaps` is total, which
models the assumed structural consistency of schema and rows (`catCols`
entries always resolve). -/
structure Schema where
  numCols : List String
  catCols : List String
  catMaps : String → CatMap
  seeds : Option Seeds

/-- `schema.__seeds ?? { split:42, kfold:1337, trainOrder:777 }`. -/
def seedsOf (schema : Schema) : Seeds :=
  schema.seeds.getD ⟨42, 1337, 777⟩

/-! ## The pipeline, step by step -/

/-- Step 1: train indices of the stratified split (stratify by `"make"`). -/
def trIdxOf (rows : List Row) (schema : Schema) (frac : ℚ) : List ℕ :=
  (stratifiedSplit rows frac (seedsOf schema).split "make").1

/-- Step 1: test indices of the stratified split. -/
def teIdxOf (rows : List Row) (schema : Schema) (frac : ℚ) : List ℕ :=
  (stratifiedSplit rows frac (seedsOf schema).split "make").2

/-- Step 2: the raw numeric matrix (`NaN` as `none`). -/
def rawNumOf (rows : List Row) (schema : Schema) : List (List (Option ℚ)) :=
  rows.map (fun r => schema.numCols.map (fun h => numValOf r h))

/-- Step 2: per-column imputation medians, computed over ALL rows
(train and test), defaulting to 0 for a column with no finite value. -/
def mediansOf (rows : List Row) (schema : Schema) : List ℚ :=
  (List.range schema.numCols.length).map (fun j =>
    let vals :=
      ((rawNumOf rows schema).map (fun row => row.getD j none)).filterMap id
    match vals with
    | [] => 0
    | _ => medianSorted (sortQ vals))

/-- Step 2: the imputed numeric matrix. -/
def XnumOf (rows : List Row) (schema : Schema) : List (List ℚ) :=
  (rawNumOf rows schema).map (fun row =>
    row.zipWith (fun x m => x.getD m) (mediansOf rows schema))

/-- Step 3: per-categorical-column integer codes, full length. -/
def XcatsOf (rows : List Row) (schema : Schema) : List (List ℕ) :=
  schema.catCols.map (fun h =>
    rows.map (fun r => ((schema.catMaps h).map.lookup (catKeyOf r h)).getD 0))

/-- Step 4: the raw target column (`price`), `none` for non-finite. -/
def pricesRawOf (rows : List Row) : List (Option ℚ) :=
  rows.map (fun r => numValOf r "price")

/-- Step 4: the finite raw targets of the train partition, in train order. -/
def trainPricesOf (rows : List Row) (schema : Schema) (frac : ℚ) : List ℚ :=
  (trIdxOf rows schema frac).filterMap
    (fun i => (pricesRawOf rows).getD i none)

/-- Step 4: lower winsorization bound (5th percentile of train targets). -/
def pLoOf (rows : List Row) (schema : Schema) (frac : ℚ) : Option ℚ :=
  quantile (trainPricesOf rows schema frac) (1 / 20)

/-- Step 4: upper winsorization bound (95th percentile of train targets). -/
def pHiOf (rows : List Row) (schema : Schema) (frac : ℚ) : Option ℚ :=
  quantile (trainPricesOf rows schema frac) (19 / 20)

/-- Step 4: all targets clipped to `[pLo, pHi]` (`NaN` propagates, and a
`NaN` bound — empty train targets — makes every clipped value `NaN`). -/
def pricesClippedOf (rows : List Row) (schema : Schema) (frac : ℚ) :
    List (Option ℚ) :=
  (pricesRawOf rows).map (fun ov =>
    match ov, pLoOf rows schema frac, pHiOf rows schema frac with
    | some v, some lo, some hi => some (clip v lo hi)
    | _, _, _ => none)

/-- Step 4: the log-transformed target.  `log1p(x)` is finite exactly when
`x > -1`; being strictly increasing and injective there, its argument is
carried in place of its value (no claim reads the logarithm's value). -/
def yLogOf (rows : List Row) (schema : Schema) (frac : ℚ) : List (Option ℚ) :=
  (pricesClippedOf rows schema frac).map (fun ov =>
    ov.bind (fun v => if -1 < v then some v else none))

/-- Step 5: the train indices shuffled with the K-fold seed. -/
def kfoldShuffledOf (rows : List Row) (schema : Schema) (frac : ℚ) : List ℕ :=
  shuffleWithSeed (trIdxOf rows schema frac) (seedsOf schema).kfold

/-- Step 5: the K = 5 folds, dealt round-robin from the shuffled train
indices (`arr[k % K].push(i)`). -/
def foldsOf (rows : List Row) (schema : Schema) (frac : ℚ) : List (List ℕ) :=
  (List.range 5).map (fun f =>
    (kfoldShuffledOf rows schema frac).enum.filterMap
      (fun p => if p.1 % 5 = f then some p.2 else none))

/-- Step 5: the fold of a row index (`foldOf.get(i)`, `none` models a test
row absent from the fold `Map`; later `Map.set` calls win). -/
def foldOfFn (rows : List Row) (schema : Schema) (frac : ℚ) (i : ℕ) :
    Option ℕ :=
  (foldsOf rows schema frac).enum.foldl
    (fun acc p => if p.2.contains i then some p.1 else acc) none

/-- Step 5: `globalMean`, the mean of the finite train targets with the
denominator floored to 1. -/
def globalMeanOf (rows : List Row) (schema : Schema) (frac : ℚ) : ℚ :=
  (trainPricesOf rows schema frac).sum /
    ((max 1 (trainPricesOf rows schema frac).length : ℕ) : ℚ)

/-- `smoothed(sum, cnt, base, alpha) = (sum + alpha*base) / (cnt + alpha)`. -/
def smoothed (sum : ℚ) (cnt : ℕ) (base alpha : ℚ) : ℚ :=
  (sum + alpha * base) / ((cnt : ℚ) + alpha)

/-- The categorical columns designated for target encoding. -/
def encCols : List String :=
  ["make", "body-style", "drive-wheels", "engine-type", "fuel-system",
   "aspiration", "num-of-doors"]

/-- Add one observation to the per-category `(sum, count)` association list
(JS `Map` insertion order). -/
def bumpStat (st : List (String × ℚ × ℕ)) (k : String) (v : ℚ) :
    List (String × ℚ × ℕ) :=
  match st with
  | [] => [(k, v, 1)]
  | (k', s, n) :: rest =>
    if k' == k then (k', s + v, n + 1) :: rest
    else (k', s, n) :: bumpStat rest k v

/-- Per-category `(sum, count)` of the raw target over the rows of `idxs`,
skipping rows with a non-finite target. -/
def catStats (rows : List Row) (c : String) (idxs : List ℕ) :
    List (String × ℚ × ℕ) :=
  idxs.foldl (fun acc i =>
    match (pricesRawOf rows).getD i none with
    | none => acc
    | some yv => bumpStat acc (catKeyOf (rows.getD i []) c) yv) []

/-- Build the JS-object encoding map: an `'__UNK__'` entry holding the
global mean, then one smoothed entry per category; a later entry with the
same key overwrites an earlier one on lookup. -/
def mkEncMap (gm : ℚ) (st : List (String × ℚ × ℕ)) : List (String × ℚ) :=
  ("__UNK__", gm) :: st.map (fun t => (t.1, smoothed t.2.1 t.2.2 gm 10))

/-- JS object property lookup on the entry list (last assignment wins). -/
def objGet (m : List (String × ℚ)) (k : String) : Option ℚ :=
  (m.reverse.find? (fun p => p.1 == k)).map (fun p => p.2)

/-- Step 5: the train rows outside fold `f`
(`trIdx.filter(i => foldOf.get(i) !== f)`). -/
def trFOf (rows : List Row) (schema : Schema) (frac : ℚ) (f : ℕ) : List ℕ :=
  (trIdxOf rows schema frac).filter
    (fun i => decide (foldOfFn rows schema frac i ≠ some f))

/-- Step 5: the fold-`f` encoding map of column `c`. -/
def encMapsByFoldOf (rows : List Row) (schema : Schema) (frac : ℚ)
    (c : String) (f : ℕ) : List (String × ℚ) :=
  mkEncMap (globalMeanOf rows schema frac)
    (catStats rows c (trFOf rows schema frac f))

/-- Step 5: the full-train encoding map of column `c` (for test rows). -/
def fullMapsOf (rows : List Row) (schema : Schema) (frac : ℚ) (c : String) :
    List (String × ℚ) :=
  mkEncMap (globalMeanOf rows schema frac)
    (catStats rows c (trIdxOf rows schema frac))

/-- Step 6: `encValue(i, col)`: a training row looks its category up in its
own fold's map, any other row in the full map; a missing category falls
back to the map's `'__UNK__'` entry (always present). -/
def encValue (rows : List Row) (schema : Schema) (frac : ℚ) (i : ℕ)
    (c : String) : ℚ :=
  let key := catKeyOf (rows.getD i []) c
  match foldOfFn rows schema frac i with
  | some f =>
    let m := encMapsByFoldOf rows schema frac c f
    (objGet m key).getD ((objGet m "__UNK__").getD 0)
  | none =>
    let m := fullMapsOf rows schema frac c
    (objGet m key).getD ((objGet m "__UNK__").getD 0)

/-- Step 6: the numeric matrix with the seven encoded columns appended. -/
def XnumPlusOf (rows : List Row) (schema : Schema) (frac : ℚ) :
    List (List ℚ) :=
  (List.range rows.length).map (fun i =>
    (XnumOf rows schema).getD i [] ++
      encCols.map (fun c => encValue rows schema frac i c))

/-- The published final numeric width (`XnumPlus[0].length`). -/
def numInputDimOf (rows : List Row) (schema : Schema) (frac : ℚ) : ℕ :=
  ((XnumPlusOf rows schema frac).headD []).length

/-- Step 7: the train-row restriction of the widened numeric matrix. -/
def trainNumOf (rows : List Row) (schema : Schema) (frac : ℚ) :
    List (List ℚ) :=
  (trIdxOf rows schema frac).map
    (fun i => (XnumPlusOf rows schema frac).getD i [])

/-- Step 7: per-column robust stats, fit on the train rows of the widened
matrix. -/
def statsOf (rows : List Row) (schema : Schema) (frac : ℚ) : List RStats :=
  (List.range (numInputDimOf rows schema frac)).map (fun j =>
    robustStats ((trainNumOf rows schema frac).map (fun r => r.getD j 0)))

/-- Step 7: the scaled matrix, `(x - median) / scale` on every row. -/
def XnumScaledOf (rows : List Row) (schema : Schema) (frac : ℚ) :
    List (List ℚ) :=
  (XnumPlusOf rows schema frac).map (fun row =>
    row.zipWith (fun x st => (x - st.median) / st.scale)
      (statsOf rows schema frac))

/-- Step 8: the indices whose transformed target is finite. -/
def validOf (rows : List Row) (schema : Schema) (frac : ℚ) : List ℕ :=
  (yLogOf rows schema frac).enum.filterMap
    (fun p => if p.2.isSome then some p.1 else none)

/-- Step 8: the filtered train index list. -/
def trFinalOf (rows : List Row) (schema : Schema) (frac : ℚ) : List ℕ :=
  (trIdxOf rows schema frac).filter
    (fun i => (validOf rows schema frac).contains i)

/-- Step 8: the filtered test index list (splitter order, no reshuffle). -/
def teFinalOf (rows : List Row) (schema : Schema) (frac : ℚ) : List ℕ :=
  (teIdxOf rows schema frac).filter
    (fun i => (validOf rows schema frac).contains i)

/-- Step 8: the single deterministic permutation of the train order. -/
def trainOrderOf (rows : List Row) (schema : Schema) (frac : ℚ) : List ℕ :=
  shuffleWithSeed (trFinalOf rows schema frac) (seedsOf schema).trainOrder

/-- The assembled output arrays (tensor creation is external wiring). -/
structure TabularOut where
  XnumTrain : List (List ℚ)
  XnumTest : List (List ℚ)
  yTrain : List (Option ℚ)
  yTest : List (Option ℚ)
  XcatsTrain : List (List ℕ)
  XcatsTest : List (List ℕ)
  numStats : List RStats
  numInputDim : ℕ

/-- Step 8: assembly of the output arrays. -/
def mkOutput (rows : List Row) (schema : Schema) (frac : ℚ) : TabularOut :=
  { XnumTrain := (trainOrderOf rows schema frac).map
      (fun i => (XnumScaledOf rows schema frac).getD i [])
    XnumTest := (teFinalOf rows schema frac).map
      (fun i => (XnumScaledOf rows schema frac).getD i [])
    yTrain := (trainOrderOf rows schema frac).map
      (fun i => (yLogOf rows schema frac).getD i none)
    yTest := (teFinalOf rows schema frac).map
      (fun i => (yLogOf rows schema frac).getD i none)
    XcatsTrain := (XcatsOf rows schema).map (fun col =>
      (trainOrderOf rows schema frac).map (fun i => col.getD i 0))
    XcatsTest := (XcatsOf rows schema).map (fun col =>
      (teFinalOf rows schema frac).map (fun i => col.getD i 0))
    numStats := statsOf rows schema frac
    numInputDim := numInputDimOf rows schema frac }

/-- `buildTabularTensors`.  The function body contains no explicit `throw`,
but two JS runtime errors can surface: on an empty row list the access
`XnumPlus[0].length` raises a `TypeError`, and `tf.tensor2d(XnumTrainArr)`
(respectively `tf.tensor2d(XnumTestArr)`, one line later) raises when the
filtered train (test) partition is empty, because the nested-array value
is `[]` and no shape is passed — the target and categorical tensors pass
explicit shapes and accept zero rows.  These are the error outcomes, in
program order; tensor creation is otherwise external wiring around the
assembled arrays. -/
def buildTabularTensors (rows : List Row) (schema : Schema) (frac : ℚ) :
    Except String TabularOut :=
  match rows with
  | [] => Except.error "TypeError: cannot read property of undefined"
  | _ :: _ =>
    if (trFinalOf rows schema frac).isEmpty then
      Except.error "tensor2d: empty train values require a shape"
    else if (teFinalOf rows schema frac).isEmpty then
      Except.error "tensor2d: empty test values require a shape"
    else Except.ok (mkOutput rows schema frac)

/-! ## CSV parsing (`parseCarsCSV`) -/

/-- JS whitespace test for `trim` (the ASCII whitespace characters). -/
def isWSJS (c : Char) : Bool :=
  c = ' ' || c = Char.ofNat 9 || c = Char.ofNat 10 || c = Char.ofNat 13 ||
  c = Char.ofNat 11 || c = Char.ofNat 12

/-- `String.prototype.trim` on a character list. -/
def trimChars (cs : List Char) : List Char :=
  ((cs.dropWhile isWSJS).reverse.dropWhile isWSJS).reverse

/-- `text.split(sep)` for a one-character separator (`acc` holds the
current cell, reversed). -/
def splitOnChar (sep : Char) : List Char → List Char → List (List Char)
  | [], acc => [acc.reverse]
  | c :: rest, acc =>
    if c = sep then acc.reverse :: splitOnChar sep rest []
    else splitOnChar sep rest (c :: acc)

/-- Split a text on the line pattern: split on newline, a directly
preceding carriage return consumed with it (the input is trimmed first,
so no segment ends in a bare carriage return not followed by newline). -/
def splitLinesJS (cs : List Char) : List (List Char) :=
  (splitOnChar (Char.ofNat 10) cs []).map (fun l =>
    if l.getLast? = some (Char.ofNat 13) then l.dropLast else l)

/-- Pack a character list into a string. -/
def strOfChars (cs : List Char) : String := ⟨cs⟩

/-- The separator heuristic: `';'` iff the text contains `';'` and no
`','`. -/
def sepOf (t : List Char) : Char :=
  if t.contains ';' && !(t.contains ',') then ';' else ','

/-- The trimmed header cells of the CSV text. -/
def headerOf (text : String) : List String :=
  let t := trimChars text.data
  ((splitOnChar (sepOf t) ((splitLinesJS t).headD []) []).map
    (fun c => strOfChars (trimChars c)))

/-- `parseCarsCSV` on the file's text: fails iff the header has no
`price` column; otherwise returns the rows as string records
(`obj[h] = cells[i] ?? ''`).  The numeric interpretation of the cells
(JS `Number`) is outside the verified core. -/
def parseCarsCSV (text : String) :
    Except String (List (List (String × String))) :=
  let t := trimChars text.data
  let lines := splitLinesJS t
  let header := headerOf text
  if header.contains "price" then
    Except.ok (lines.tail.map (fun line =>
      let cells := (splitOnChar (sepOf t) line []).map
        (fun c => strOfChars (trimChars c))
      header.enum.map (fun p => (p.2, cells.getD p.1 ""))))
  else Except.error "Column 'price' not found"

/-! ## Basic list lemmas -/

theorem list_getD_map {α β : Type} (f : α → β) (l : List α) (i : ℕ) (d : β)
    (d' : α) (h : i < l.length) : (l.map f).getD i d = f (l.getD i d') := by
  simp [List.getD_eq_getElem?_getD, List.getElem?_map,
    List.getElem?_eq_getElem h]

theorem list_getD_range_map {α : Type} (f : ℕ → α) (n i : ℕ) (d : α)
    (h : i < n) : ((List.range n).map f).getD i d = f i := by
  rw [list_getD_map f _ i d 0 (by simpa using h)]
  simp [List.getD_eq_getElem?_getD, List.getElem?_range h]

theorem list_getD_zipWith {α β γ : Type} (f : α → β → γ) (l₁ : List α)
    (l₂ : List β) (i : ℕ) (d : γ) (d₁ : α) (d₂ : β) (h₁ : i < l₁.length)
    (h₂ : i < l₂.length) :
    (l₁.zipWith f l₂).getD i d = f (l₁.getD i d₁) (l₂.getD i d₂) := by
  simp [List.getD_eq_getElem?_getD, List.getElem?_zipWith',
    List.getElem?_eq_getElem h₁, List.getElem?_eq_getElem h₂]

theorem list_filterMap_congr {α β : Type} {f g : α → Option β} :
    ∀ {l : List α}, (∀ a ∈ l, f a = g a) → l.filterMap f = l.filterMap g
  | [], _ => rfl
  | a :: l, h => by
    have ht : l.filterMap f = l.filterMap g :=
      list_filterMap_congr (fun x hx => h x (List.mem_cons_of_mem a hx))
    simp only [List.filterMap_cons, h a (List.mem_cons_self a l), ht]

/-! ## DSG and shuffle lemmas -/

theorem dsgStates_length (seed n : ℕ) : (dsgStates seed n).length = n := by
  induction n generalizing seed with
  | zero => rfl
  | succ n ih => simp [dsgStates, ih]

theorem dsgKeys_length (seed n : ℕ) : (dsgKeys seed n).length = n := by
  simp [dsgKeys, dsgStates_length]

theorem shuffleWithSeed_perm {α : Type} (arr : List α) (seed : ℕ) :
    (shuffleWithSeed arr seed).Perm arr := by
  have hp := List.perm_insertionSort (fun (p q : ℚ × α) => p.1 ≤ q.1)
    ((dsgKeys seed arr.length).zip arr)
  have := hp.map (fun p : ℚ × α => p.2)
  have hz : ((dsgKeys seed arr.length).zip arr).map
      (fun p : ℚ × α => p.2) = arr := by
    apply List.map_snd_zip
    simp [dsgKeys_length]
  rw [hz] at this
  exact this

theorem shuffleWithSeed_length {α : Type} (arr : List α) (seed : ℕ) :
    (shuffleWithSeed arr seed).length = arr.length :=
  (shuffleWithSeed_perm arr seed).length_eq

/-! ## Group-by invariants -/

/-- The keys of a group list. -/
def keysG (g : List (String × List ℕ)) : List String :=
  g.map (fun p => p.1)

theorem addToGroups_flat_perm (k : String) (i : ℕ)
    (g : List (String × List ℕ)) :
    ((addToGroups g k i).flatMap (fun p => p.2)).Perm
      (g.flatMap (fun p => p.2) ++ [i]) := by
  induction g with
  | nil => simp [addToGroups]
  | cons hd rest ih =>
    obtain ⟨k', l⟩ := hd
    by_cases h : k' = k
    · simp only [addToGroups, h, beq_self_eq_true, if_true,
        List.flatMap_cons]
      have base : ([i] ++ (rest.flatMap fun p => p.2)).Perm
          ((rest.flatMap fun p => p.2) ++ [i]) := List.perm_append_comm
      have := base.append_left l
      simpa [List.append_assoc] using this
    · simp only [addToGroups, beq_iff_eq, h, if_false, List.flatMap_cons]
      have := ih.append_left l
      simpa [List.append_assoc] using this

theorem addToGroups_keys_mem (k : String) (i : ℕ)
    (g : List (String × List ℕ)) :
    ∀ x ∈ keysG (addToGroups g k i), x ∈ keysG g ∨ x = k := by
  induction g with
  | nil => simp [addToGroups, keysG]
  | cons hd rest ih =>
    obtain ⟨k', l⟩ := hd
    by_cases h : k' = k
    · simp only [addToGroups, h, beq_self_eq_true, if_true, keysG,
        List.map_cons, List.mem_cons]
      tauto
    · intro x hx
      simp only [addToGroups, beq_iff_eq, h, if_false, keysG,
        List.map_cons, List.mem_cons] at hx
      rcases hx with hx | hx
      · exact Or.inl (by simp [keysG, hx])
      · rcases ih x hx with h2 | h2
        · refine Or.inl ?_
          simp only [keysG, List.map_cons, List.mem_cons]
          exact Or.inr (by simpa [keysG] using h2)
        · exact Or.inr h2

theorem addToGroups_keys_nodup (k : String) (i : ℕ)
    (g : List (String × List ℕ)) (hnd : (keysG g).Nodup) :
    (keysG (addToGroups g k i)).Nodup := by
  induction g with
  | nil => simp [addToGroups, keysG]
  | cons hd rest ih =>
    obtain ⟨k', l⟩ := hd
    simp only [keysG, List.map_cons, List.nodup_cons] at hnd
    by_cases h : k' = k
    · simp only [addToGroups, h, beq_self_eq_true, if_true, keysG,
        List.map_cons, List.nodup_cons]
      exact ⟨by simpa [keysG, h] using hnd.1, hnd.2⟩
    · simp only [addToGroups, beq_iff_eq, h, if_false, keysG,
        List.map_cons, List.nodup_cons]
      refine ⟨fun hc => ?_, ih hnd.2⟩
      rcases addToGroups_keys_mem k i rest k' (by simpa [keysG] using hc)
        with h2 | h2
      · exact hnd.1 (by simpa [keysG] using h2)
      · exact h h2

theorem addToGroups_allkeys (keyFn : ℕ → String) (k : String) (i : ℕ)
    (hk : keyFn i = k) (g : List (String × List ℕ))
    (hall : ∀ p ∈ g, ∀ j ∈ p.2, keyFn j = p.1) :
    ∀ p ∈ addToGroups g k i, ∀ j ∈ p.2, keyFn j = p.1 := by
  induction g with
  | nil =>
    intro p hp j hj
    simp only [addToGroups, List.mem_singleton] at hp
    subst hp
    simp only [List.mem_singleton] at hj
    subst hj; exact hk
  | cons hd rest ih =>
    obtain ⟨k', l⟩ := hd
    intro p hp j hj
    by_cases h : k' = k
    · rw [addToGroups, if_pos (by simpa using h)] at hp
      rcases List.mem_cons.mp hp with hp | hp
      · subst hp
        rcases List.mem_append.mp hj with hj | hj
        · exact hall (k', l) (List.mem_cons_self _ _) j hj
        · simp only [List.mem_singleton] at hj
          subst hj
          simpa [h] using hk
      · exact hall p (List.mem_cons_of_mem _ hp) j hj
    · rw [addToGroups, if_neg (by simpa using h)] at hp
      rcases List.mem_cons.mp hp with hp | hp
      · subst hp; exact hall (k', l) (List.mem_cons_self _ _) j hj
      · exact ih (fun q hq => hall q (List.mem_cons_of_mem _ hq)) p hp j hj

theorem addToGroups_nonempty (k : String) (i : ℕ)
    (g : List (String × List ℕ)) (hne : ∀ p ∈ g, p.2 ≠ []) :
    ∀ p ∈ addToGroups g k i, p.2 ≠ [] := by
  induction g with
  | nil =>
    intro p hp
    simp only [addToGroups, List.mem_singleton] at hp
    subst hp; simp
  | cons hd rest ih =>
    obtain ⟨k', l⟩ := hd
    intro p hp
    by_cases h : k' = k
    · rw [addToGroups, if_pos (by simpa using h)] at hp
      rcases List.mem_cons.mp hp with hp | hp
      · subst hp; simp
      · exact hne p (List.mem_cons_of_mem _ hp)
    · rw [addToGroups, if_neg (by simpa using h)] at hp
      rcases List.mem_cons.mp hp with hp | hp
      · subst hp; exact hne (k', l) (List.mem_cons_self _ _)
      · exact ih (fun q hq => hne q (List.mem_cons_of_mem _ hq)) p hp

theorem foldG_flat_perm (keyFn : ℕ → String) (l : List ℕ) :
    ∀ acc : List (String × List ℕ),
      ((l.foldl (fun g i => addToGroups g (keyFn i) i) acc).flatMap
        (fun p => p.2)).Perm (acc.flatMap (fun p => p.2) ++ l) := by
  induction l with
  | nil => intro acc; simp
  | cons i rest ih =>
    intro acc
    have h1 := ih (addToGroups acc (keyFn i) i)
    have h2 := (addToGroups_flat_perm (keyFn i) i acc).append_right rest
    simp only [List.foldl_cons]
    exact h1.trans (by simpa [List.append_assoc] using h2)

theorem foldG_keys_nodup (keyFn : ℕ → String) (l : List ℕ) :
    ∀ acc : List (String × List ℕ), (keysG acc).Nodup →
      (keysG (l.foldl (fun g i => addToGroups g (keyFn i) i) acc)).Nodup := by
  induction l with
  | nil => intro acc h; simpa using h
  | cons i rest ih =>
    intro acc h
    exact ih _ (addToGroups_keys_nodup (keyFn i) i acc h)

theorem foldG_allkeys (keyFn : ℕ → String) (l : List ℕ) :
    ∀ acc : List (String × List ℕ),
      (∀ p ∈ acc, ∀ j ∈ p.2, keyFn j = p.1) →
      ∀ p ∈ l.foldl (fun g i => addToGroups g (keyFn i) i) acc,
        ∀ j ∈ p.2, keyFn j = p.1 := by
  induction l with
  | nil => intro acc h; simpa using h
  | cons i rest ih =>
    intro acc h
    exact ih _ (addToGroups_allkeys keyFn (keyFn i) i rfl acc h)

theorem foldG_nonempty (keyFn : ℕ → String) (l : List ℕ) :
    ∀ acc : List (String × List ℕ), (∀ p ∈ acc, p.2 ≠ []) →
      ∀ p ∈ l.foldl (fun g i => addToGroups g (keyFn i) i) acc, p.2 ≠ [] := by
  induction l with
  | nil => intro acc h; simpa using h
  | cons i rest ih =>
    intro acc h
    exact ih _ (addToGroups_nonempty (keyFn i) i acc h)

theorem groupsOf_flat_perm (rows : List Row) (key : String) :
    ((groupsOf rows key).flatMap (fun p => p.2)).Perm
      (List.range rows.length) := by
  simpa using foldG_flat_perm (rowKey rows key) (List.range rows.length) []

theorem groupsOf_keys_nodup (rows : List Row) (key : String) :
    (keysG (groupsOf rows key)).Nodup :=
  foldG_keys_nodup (rowKey rows key) (List.range rows.length) []
    (by simp [keysG])

theorem groupsOf_allkeys (rows : List Row) (key : String) :
    ∀ p ∈ groupsOf rows key, ∀ j ∈ p.2, rowKey rows key j = p.1 :=
  foldG_allkeys (rowKey rows key) (List.range rows.length) [] (by simp)

theorem groupsOf_nonempty (rows : List Row) (key : String) :
    ∀ p ∈ groupsOf rows key, p.2 ≠ [] :=
  foldG_nonempty (rowKey rows key) (List.range rows.length) [] (by simp)

/-! ## Split-level lemmas -/

theorem flatMap_append_perm {γ β : Type} (gs : List γ) (f h : γ → List β) :
    (gs.flatMap f ++ gs.flatMap h).Perm
      (gs.flatMap (fun g => f g ++ h g)) := by
  induction gs with
  | nil => simp
  | cons g rest ih =>
    simp only [List.flatMap_cons]
    have s1 : (f g ++ rest.flatMap f ++ (h g ++ rest.flatMap h)).Perm
        (f g ++ (h g ++ (rest.flatMap f ++ rest.flatMap h))) := by
      have hb : ((rest.flatMap f) ++ h g).Perm
          (h g ++ rest.flatMap f) := List.perm_append_comm
      have h2 := (hb.append_right (rest.flatMap h)).append_left (f g)
      simpa [List.append_assoc] using h2
    have s2 : (f g ++ (h g ++ (rest.flatMap f ++ rest.flatMap h))).Perm
        (f g ++ h g ++ rest.flatMap (fun g => f g ++ h g)) := by
      have := ih.append_left (h g)
      simpa [List.append_assoc] using this.append_left (f g)
    exact s1.trans s2

theorem flatMap_perm_congr {γ β : Type} (gs : List γ) (f h : γ → List β)
    (hp : ∀ g ∈ gs, (f g).Perm (h g)) :
    (gs.flatMap f).Perm (gs.flatMap h) := by
  induction gs with
  | nil => simp
  | cons g rest ih =>
    simp only [List.flatMap_cons]
    exact (hp g (List.mem_cons_self _ _)).append
      (ih (fun q hq => hp q (List.mem_cons_of_mem _ hq)))

theorem stratifiedSplit_parts_perm (rows : List Row) (frac : ℚ) (seed : ℕ)
    (key : String) :
    ((stratifiedSplit rows frac seed key).1 ++
      (stratifiedSplit rows frac seed key).2).Perm
      (List.range rows.length) := by
  unfold stratifiedSplit
  refine ((flatMap_append_perm (groupsOf rows key) _ _).trans ?_)
  refine (flatMap_perm_congr _ _ (fun p => p.2) ?_).trans
    (groupsOf_flat_perm rows key)
  intro g _
  rw [List.take_append_drop]
  exact shuffleWithSeed_perm g.2 seed

theorem cutOf_pos (len : ℕ) (frac : ℚ) : 1 ≤ cutOf len frac := by
  unfold cutOf
  have h : (1 : ℤ) ≤ max 1 ⌊(len : ℚ) * frac⌋ := le_max_left _ _
  omega

theorem cutOf_le (len : ℕ) (frac : ℚ) (h1 : frac ≤ 1) (hlen : 1 ≤ len) :
    cutOf len frac ≤ len := by
  unfold cutOf
  have hm : (len : ℚ) * frac ≤ (len : ℚ) := by
    nlinarith [(by positivity : (0 : ℚ) ≤ (len : ℚ))]
  have hf : ⌊(len : ℚ) * frac⌋ ≤ (len : ℤ) := by
    have := Int.floor_le_floor hm
    simpa using this
  have : max 1 ⌊(len : ℚ) * frac⌋ ≤ (len : ℤ) := by
    exact max_le (by exact_mod_cast hlen) hf
  omega

theorem flatMap_countP_eq (keyFn : ℕ → String)
    (f : (String × List ℕ) → List ℕ) (k₀ : String) (l₀ : List ℕ) :
    ∀ gs : List (String × List ℕ),
      (∀ g ∈ gs, ∀ j ∈ f g, keyFn j = g.1) → (keysG gs).Nodup →
      (k₀, l₀) ∈ gs →
      (gs.flatMap f).countP (fun i => keyFn i == k₀) =
        (f (k₀, l₀)).length := by
  intro gs
  induction gs with
  | nil => intro _ _ hg; simp at hg
  | cons g rest ih =>
    intro hmem hnd hg
    obtain ⟨k, l⟩ := g
    simp only [keysG, List.map_cons, List.nodup_cons] at hnd
    simp only [List.flatMap_cons, List.countP_append]
    rcases List.mem_cons.mp hg with hg | hg
    · have hkk : k = k₀ := by
        have := congrArg Prod.fst hg.symm
        simpa using this
      have hll : (k₀, l₀) = (k, l) := hg.symm ▸ rfl
      have hfull : (f (k, l)).countP (fun i => keyFn i == k₀) =
          (f (k, l)).length := by
        rw [List.countP_eq_length]
        intro j hj
        simp [hmem (k, l) (List.mem_cons_self _ _) j hj, hkk]
      have hzero : (rest.flatMap f).countP (fun i => keyFn i == k₀) = 0 := by
        rw [List.countP_eq_zero]
        intro j hj
        obtain ⟨g', hg', hjg⟩ := List.mem_flatMap.mp hj
        have hkey := hmem g' (List.mem_cons_of_mem _ hg') j hjg
        have hne : g'.1 ≠ k₀ := by
          intro hc
          apply hnd.1
          rw [hkk, ← hc]
          simpa [keysG] using List.mem_map_of_mem (fun p => p.1) hg'
        simp [hkey, hne]
      rw [hfull, hzero, hg]
      simp
    · have hk0mem : k₀ ∈ keysG rest := by
        simpa [keysG] using List.mem_map_of_mem (fun p => p.1) hg
      have hkk : k ≠ k₀ := fun hc => hnd.1 (hc ▸ hk0mem)
      have hzero : (f (k, l)).countP (fun i => keyFn i == k₀) = 0 := by
        rw [List.countP_eq_zero]
        intro j hj
        have hkey := hmem (k, l) (List.mem_cons_self _ _) j hj
        simp [hkey, hkk]
      rw [hzero]
      simpa using ih (fun q hq => hmem q (List.mem_cons_of_mem _ hq))
        hnd.2 hg

theorem stratifiedSplit_nodup (rows : List Row) (frac : ℚ) (seed : ℕ)
    (key : String) :
    ((stratifiedSplit rows frac seed key).1 ++
      (stratifiedSplit rows frac seed key).2).Nodup :=
  (stratifiedSplit_parts_perm rows frac seed key).nodup_iff.mpr
    (List.nodup_range _)

theorem stratifiedSplit_mem_lt (rows : List Row) (frac : ℚ) (seed : ℕ)
    (key : String) (i : ℕ)
    (h : i ∈ (stratifiedSplit rows frac seed key).1 ∨
         i ∈ (stratifiedSplit rows frac seed key).2) :
    i < rows.length := by
  have hm : i ∈ (stratifiedSplit rows frac seed key).1 ++
      (stratifiedSplit rows frac seed key).2 := List.mem_append.mpr h
  have := (stratifiedSplit_parts_perm rows frac seed key).mem_iff.mp hm
  exact List.mem_range.mp this

theorem trIdxOf_mem_lt (rows : List Row) (schema : Schema) (frac : ℚ)
    (i : ℕ) (h : i ∈ trIdxOf rows schema frac) : i < rows.length :=
  stratifiedSplit_mem_lt rows frac (seedsOf schema).split "make" i (Or.inl h)

theorem trIdxOf_ne_nil (rows : List Row) (schema : Schema) (frac : ℚ)
    (h : rows ≠ []) : trIdxOf rows schema frac ≠ [] := by
  unfold trIdxOf stratifiedSplit
  intro hc
  simp only at hc
  cases hgs : groupsOf rows "make" with
  | nil =>
    have := groupsOf_flat_perm rows "make"
    rw [hgs] at this
    have hn : rows.length = 0 := by
      have hl := this.length_eq
      simpa using hl.symm
    exact h (List.length_eq_zero.mp hn)
  | cons g rest =>
    rw [hgs] at hc
    simp only [List.flatMap_cons] at hc
    have h2 := List.append_eq_nil.mp hc
    have hglen : 1 ≤ g.2.length := by
      have := groupsOf_nonempty rows "make" g (hgs ▸ List.mem_cons_self _ _)
      exact List.length_pos.mpr this
    have htake := congrArg List.length h2.1
    rw [List.length_take, shuffleWithSeed_length] at htake
    have hcut := cutOf_pos g.2.length frac
    simp only [List.length_nil] at htake
    omega

/-- **C5** (stratified split coverage): for every input row sequence, train
fraction in `(0,1]` and seed, each stratification group contributes exactly
`cut = max(1, ⌊groupSize·f⌋)` of its shuffled indices to train and the rest
to test; every non-empty group contributes at least one train index, a
singleton group contributes none to test, per group
`trainCount + testCount = groupSize`, and globally train ++ test is a
permutation of all row indices (hence disjoint with union everything). -/
theorem C5_stratified_split_coverage (rows : List Row) (frac : ℚ) (seed : ℕ)
    (key : String) (h0 : 0 < frac) (h1 : frac ≤ 1) :
    (∀ p ∈ groupsOf rows key,
      (stratifiedSplit rows frac seed key).1.countP
          (fun i => rowKey rows key i == p.1) = cutOf p.2.length frac ∧
      cutOf p.2.length frac = (max 1 ⌊(p.2.length : ℚ) * frac⌋).toNat ∧
      1 ≤ (stratifiedSplit rows frac seed key).1.countP
          (fun i => rowKey rows key i == p.1) ∧
      (stratifiedSplit rows frac seed key).1.countP
          (fun i => rowKey rows key i == p.1) +
        (stratifiedSplit rows frac seed key).2.countP
          (fun i => rowKey rows key i == p.1) = p.2.length ∧
      (p.2.length = 1 →
        (stratifiedSplit rows frac seed key).2.countP
          (fun i => rowKey rows key i == p.1) = 0)) ∧
    ((stratifiedSplit rows frac seed key).1 ++
      (stratifiedSplit rows frac seed key).2).Perm
      (List.range rows.length) ∧
    (∀ i ∈ (stratifiedSplit rows frac seed key).1,
      i ∉ (stratifiedSplit rows frac seed key).2) := by
  have e1 : (stratifiedSplit rows frac seed key).1 =
      (groupsOf rows key).flatMap
        (fun g => (shuffleWithSeed g.2 seed).take (cutOf g.2.length frac)) :=
    rfl
  have e2 : (stratifiedSplit rows frac seed key).2 =
      (groupsOf rows key).flatMap
        (fun g => (shuffleWithSeed g.2 seed).drop (cutOf g.2.length frac)) :=
    rfl
  refine ⟨?_, stratifiedSplit_parts_perm rows frac seed key, ?_⟩
  · intro p hp
    have hmem_take : ∀ g ∈ groupsOf rows key,
        ∀ j ∈ (shuffleWithSeed g.2 seed).take (cutOf g.2.length frac),
          rowKey rows key j = g.1 := by
      intro g hg j hj
      have hj2 : j ∈ shuffleWithSeed g.2 seed := List.take_subset _ _ hj
      exact groupsOf_allkeys rows key g hg j
        ((shuffleWithSeed_perm g.2 seed).mem_iff.mp hj2)
    have hmem_drop : ∀ g ∈ groupsOf rows key,
        ∀ j ∈ (shuffleWithSeed g.2 seed).drop (cutOf g.2.length frac),
          rowKey rows key j = g.1 := by
      intro g hg j hj
      have hj2 : j ∈ shuffleWithSeed g.2 seed := List.drop_subset _ _ hj
      exact groupsOf_allkeys rows key g hg j
        ((shuffleWithSeed_perm g.2 seed).mem_iff.mp hj2)
    have htr := flatMap_countP_eq (rowKey rows key) _ p.1 p.2
      (groupsOf rows key) hmem_take (groupsOf_keys_nodup rows key)
      (by simpa using hp)
    have hte := flatMap_countP_eq (rowKey rows key) _ p.1 p.2
      (groupsOf rows key) hmem_drop (groupsOf_keys_nodup rows key)
      (by simpa using hp)
    have hlen : 1 ≤ p.2.length :=
      List.length_pos.mpr (groupsOf_nonempty rows key p hp)
    have hcle := cutOf_le p.2.length frac h1 hlen
    have hcpos := cutOf_pos p.2.length frac
    have htl : ((shuffleWithSeed p.2 seed).take
        (cutOf p.2.length frac)).length = cutOf p.2.length frac := by
      rw [List.length_take, shuffleWithSeed_length]
      omega
    have hdl : ((shuffleWithSeed p.2 seed).drop
        (cutOf p.2.length frac)).length =
        p.2.length - cutOf p.2.length frac := by
      rw [List.length_drop, shuffleWithSeed_length]
    rw [e1, e2, htr, hte, htl, hdl]
    refine ⟨rfl, rfl, by omega, by omega, fun hs => by omega⟩
  · intro i hi
    have hnd := stratifiedSplit_nodup rows frac seed key
    exact ((List.nodup_append.mp hnd).2.2) hi

/-! ## Concrete test inputs -/

/-- Build a row from `(column, raw, Number(raw))` triples. -/
def mkRowEx (xs : List (String × String × Option ℚ)) : Row :=
  xs.map (fun t => (t.1, ⟨t.2.1, t.2.2⟩))

/-- Four rows of one make with numeric column `x`; row 1's `x` is missing. -/
def rowsC1a : List Row :=
  [mkRowEx [("make", "A", none), ("price", "100", some 100),
            ("x", "1", some 1)],
   mkRowEx [("make", "A", none), ("price", "200", some 200),
            ("x", "?", none)],
   mkRowEx [("make", "A", none), ("price", "300", some 300),
            ("x", "10", some 10)],
   mkRowEx [("make", "A", none), ("price", "400", some 400),
            ("x", "2", some 2)]]

/-- Same as `rowsC1a` except the test row (row 2) changed `x` from 10 to 0. -/
def rowsC1b : List Row :=
  [mkRowEx [("make", "A", none), ("price", "100", some 100),
            ("x", "1", some 1)],
   mkRowEx [("make", "A", none), ("price", "200", some 200),
            ("x", "?", none)],
   mkRowEx [("make", "A", none), ("price", "300", some 300),
            ("x", "0", some 0)],
   mkRowEx [("make", "A", none), ("price", "400", some 400),
            ("x", "2", some 2)]]

/-- Schema with the single numeric column `x` and no categorical columns. -/
def schemaX : Schema := ⟨["x"], [], fun _ => ⟨[], 0⟩, none⟩

/-- Schema with no numeric and no categorical columns. -/
def schemaN : Schema := ⟨[], [], fun _ => ⟨[], 0⟩, none⟩

/-- Five rows, makes A,A,B,A,B, prices 10..50. -/
def rowsC7 : List Row :=
  [mkRowEx [("make", "A", none), ("price", "10", some 10)],
   mkRowEx [("make", "A", none), ("price", "20", some 20)],
   mkRowEx [("make", "B", none), ("price", "30", some 30)],
   mkRowEx [("make", "A", none), ("price", "40", some 40)],
   mkRowEx [("make", "B", none), ("price", "50", some 50)]]

/-- Three rows whose make is the literal string `__UNK__`. -/
def rowsC2u : List Row :=
  [mkRowEx [("make", "__UNK__", none), ("price", "200", some 200)],
   mkRowEx [("make", "__UNK__", none), ("price", "100", some 100)],
   mkRowEx [("make", "__UNK__", none), ("price", "300", some 300)]]

/-- Three rows with neither a `make` nor a `price` column. -/
def rowsC8 : List Row :=
  [mkRowEx [("z", "1", some 1)],
   mkRowEx [("z", "2", some 2)],
   mkRowEx [("z", "3", some 3)]]

/-! ## Claim C4 -/

/-- **C4** (DSG reference vector): the state update is
`newState = (state·1664525 + 1013904223) mod 2^32` with
`value = newState / 2^32`; from state 42 the first draw yields state
1083814273 with value `1083814273 / 4294967296`, and the second draw
advances from 1083814273 (yielding 378494188), not from 42 again: the
per-element draws of one permutation chain the state. -/
theorem C4_dsg_reference_vector :
    dsgNext 42 = 1083814273 ∧
    dsgVal (dsgNext 42) = 1083814273 / 4294967296 ∧
    dsgStates 42 2 = [1083814273, 378494188] ∧
    dsgNext 1083814273 = 378494188 ∧
    dsgNext 1083814273 ≠ dsgNext 42 ∧
    dsgKeys 42 2 =
      [1083814273 / 4294967296, 378494188 / 4294967296] := by
  refine ⟨by decide, ?_, by decide, by decide, by decide, ?_⟩
  · norm_num [dsgVal, dsgNext]
  · norm_num [dsgKeys, dsgStates, dsgVal, dsgNext]

/-! ## Claim C3 -/

/-- **C3** (determinism): `buildTabularTensors` is a pure function of
`rows`, `schema` (seeds included) and `trainFraction`: two executions on
equal inputs produce equal outputs — all output arrays, code arrays,
target vectors and scaling stats coincide.  (The embedding is faithful on
this point: the source reads no clock, no global generator, and JS
`Array.prototype.sort` is stable, hence deterministic.) -/
theorem C3_determinism (rows₁ rows₂ : List Row) (schema₁ schema₂ : Schema)
    (frac₁ frac₂ : ℚ) (hr : rows₁ = rows₂) (hs : schema₁ = schema₂)
    (hf : frac₁ = frac₂) :
    buildTabularTensors rows₁ schema₁ frac₁ =
      buildTabularTensors rows₂ schema₂ frac₂ := by
  subst hr; subst hs; subst hf; rfl

/-- Witness for C3 at a concrete input. -/
theorem C3_determinism_witness :
    buildTabularTensors rowsC7 schemaN (4/5) =
      buildTabularTensors rowsC7 schemaN (4/5) :=
  C3_determinism rowsC7 rowsC7 schemaN schemaN (4/5) (4/5) rfl rfl rfl

/-- Witness for C5 at a concrete input (5 rows, two makes). -/
theorem C5_stratified_split_coverage_witness :
    ((stratifiedSplit rowsC7 (4/5) 42 "make").1 ++
      (stratifiedSplit rowsC7 (4/5) 42 "make").2).Perm (List.range 5) := by
  have h := C5_stratified_split_coverage rowsC7 (4/5) 42 "make"
    (by norm_num) (by norm_num)
  simpa using h.2.1

/-! ## Claim C9 -/

/-- **C9** (row-count consistency): whenever the pipeline returns, then for
each partition independently the numeric matrix row count, the target
vector length, and every per-categorical-column code array length agree
(rows with non-finite transformed target were dropped from both). -/
theorem C9_row_count_consistency (rows : List Row) (schema : Schema)
    (frac : ℚ) (out : TabularOut)
    (h : buildTabularTensors rows schema frac = Except.ok out) :
    out.XnumTrain.length = out.yTrain.length ∧
    (∀ col ∈ out.XcatsTrain, col.length = out.yTrain.length) ∧
    out.XnumTest.length = out.yTest.length ∧
    (∀ col ∈ out.XcatsTest, col.length = out.yTest.length) := by
  cases rows with
  | nil => exact absurd h (by simp [buildTabularTensors])
  | cons a l =>
    simp only [buildTabularTensors] at h
    by_cases h1 : (trFinalOf (a :: l) schema frac).isEmpty = true
    · rw [if_pos h1] at h
      exact absurd h (by simp)
    · rw [if_neg h1] at h
      by_cases h2 : (teFinalOf (a :: l) schema frac).isEmpty = true
      · rw [if_pos h2] at h
        exact absurd h (by simp)
      · rw [if_neg h2] at h
        have hout : out = mkOutput (a :: l) schema frac := by
          injection h with h3
          exact h3.symm
        subst hout
        refine ⟨by simp [mkOutput], ?_, by simp [mkOutput], ?_⟩
        · intro col hcol
          simp only [mkOutput, List.mem_map] at hcol
          obtain ⟨c0, _, rfl⟩ := hcol
          simp [mkOutput]
        · intro col hcol
          simp only [mkOutput, List.mem_map] at hcol
          obtain ⟨c0, _, rfl⟩ := hcol
          simp [mkOutput]

/-- Witness for C9 at a concrete input. -/
theorem C9_row_count_consistency_witness :
    (mkOutput rowsC7 schemaN (4/5)).XnumTrain.length =
      (mkOutput rowsC7 schemaN (4/5)).yTrain.length ∧
    (∀ col ∈ (mkOutput rowsC7 schemaN (4/5)).XcatsTrain,
      col.length = (mkOutput rowsC7 schemaN (4/5)).yTrain.length) ∧
    (mkOutput rowsC7 schemaN (4/5)).XnumTest.length =
      (mkOutput rowsC7 schemaN (4/5)).yTest.length ∧
    (∀ col ∈ (mkOutput rowsC7 schemaN (4/5)).XcatsTest,
      col.length = (mkOutput rowsC7 schemaN (4/5)).yTest.length) :=
  C9_row_count_consistency rowsC7 schemaN (4/5)
    (mkOutput rowsC7 schemaN (4/5)) rfl

/-! ## Claim C8 -/

/-- Three rows with no `make` column but parseable targets. -/
def rowsC8p : List Row :=
  [mkRowEx [("z", "1", some 1), ("price", "100", some 100)],
   mkRowEx [("z", "2", some 2), ("price", "200", some 200)],
   mkRowEx [("z", "3", some 3), ("price", "300", some 300)]]

/-- **C8 counterexample**: an input hitting two of the three alleged
`ConfigurationError` conditions — the stratification key column `make` is
absent from every row, and there are only 2 training rows (< K = 5) — on
which `buildTabularTensors` returns normally instead of failing fatally:
in these two cases the pipeline silently continues. -/
theorem C8_counterexample :
    buildTabularTensors rowsC8p schemaN (4/5) =
      Except.ok (mkOutput rowsC8p schemaN (4/5)) ∧
    (trIdxOf rowsC8p schemaN (4/5)).length = 2 ∧
    rowsC8p.map (fun r => getCell r "make") = [none, none, none] :=
  ⟨rfl, by decide, by decide⟩

theorem enumFrom_none_filterMap :
    ∀ (l : List (Option ℚ)) (k : ℕ), (∀ x ∈ l, x = none) →
      (List.enumFrom k l).filterMap
        (fun p => if p.2.isSome then some p.1 else none) = [] := by
  intro l
  induction l with
  | nil => intro k _; rfl
  | cons a rest ih =>
    intro k h
    have ha : a = none := h a (List.mem_cons_self _ _)
    subst ha
    rw [List.enumFrom, List.filterMap_cons]
    simp only [Option.isSome_none, Bool.false_eq_true, if_false]
    exact ih (k + 1) (fun x hx => h x (List.mem_cons_of_mem _ hx))

theorem yLogOf_all_none (rows : List Row) (schema : Schema) (frac : ℚ)
    (h : ∀ r ∈ rows, numValOf r "price" = none) :
    ∀ x ∈ yLogOf rows schema frac, x = none := by
  have hraw : pricesRawOf rows = rows.map (fun _ => (none : Option ℚ)) :=
    List.map_congr_left (fun r hr => h r hr)
  intro x hx
  unfold yLogOf pricesClippedOf at hx
  rw [hraw, List.map_map, List.map_map] at hx
  obtain ⟨r, _, rfl⟩ := List.mem_map.mp hx
  rfl

theorem validOf_eq_nil (rows : List Row) (schema : Schema) (frac : ℚ)
    (h : ∀ x ∈ yLogOf rows schema frac, x = none) :
    validOf rows schema frac = [] := by
  unfold validOf
  exact enumFrom_none_filterMap (yLogOf rows schema frac) 0 h

theorem trFinalOf_eq_nil_of_no_target (rows : List Row) (schema : Schema)
    (frac : ℚ) (h : ∀ r ∈ rows, numValOf r "price" = none) :
    trFinalOf rows schema frac = [] := by
  unfold trFinalOf
  rw [validOf_eq_nil rows schema frac (yLogOf_all_none rows schema frac h)]
  simp

/-- **C8 amended**: the fatal failures are the parser's header check and
the absent-target case — `parseCarsCSV` rejects a header without `price`,
and when no row has a parseable target all rows are dropped at assembly,
the filtered train partition is empty, and tensor creation on the empty
train array throws.  But `buildTabularTensors` performs no configuration
checks of its own: whenever the filtered train and test partitions are
non-empty it returns normally — in particular an absent stratification
key (all rows grouped under `__NA__`) and K = 5 exceeding the number of
training rows (folds left empty) do not fail; in those two cases the
pipeline silently continues. -/
theorem C8_amended_config_failures (text : String) (rows : List Row)
    (schema : Schema) (frac : ℚ) (hp : "price" ∉ headerOf text)
    (hr : rows ≠ []) :
    parseCarsCSV text = Except.error "Column 'price' not found" ∧
    ((∀ r ∈ rows, numValOf r "price" = none) →
      buildTabularTensors rows schema frac =
        Except.error "tensor2d: empty train values require a shape") ∧
    (trFinalOf rows schema frac ≠ [] → teFinalOf rows schema frac ≠ [] →
      buildTabularTensors rows schema frac =
        Except.ok (mkOutput rows schema frac)) := by
  refine ⟨by simp [parseCarsCSV, hp], ?_, ?_⟩
  · intro htarget
    have htf := trFinalOf_eq_nil_of_no_target rows schema frac htarget
    cases rows with
    | nil => exact absurd rfl hr
    | cons a l =>
      simp only [buildTabularTensors]
      rw [if_pos (by rw [htf]; rfl)]
  · intro htr hte
    cases rows with
    | nil => exact absurd rfl hr
    | cons a l =>
      have h1 : (trFinalOf (a :: l) schema frac).isEmpty = false := by
        cases hx : trFinalOf (a :: l) schema frac with
        | nil => exact absurd hx htr
        | cons y ys => rfl
      have h2 : (teFinalOf (a :: l) schema frac).isEmpty = false := by
        cases hx : teFinalOf (a :: l) schema frac with
        | nil => exact absurd hx hte
        | cons y ys => rfl
      simp only [buildTabularTensors]
      rw [if_neg (by rw [h1]; simp), if_neg (by rw [h2]; simp)]

/-- Witness for C8 amended at a concrete text and row list (the
partitions of `rowsC7` are non-empty, so the build returns normally). -/
theorem C8_amended_config_failures_witness :
    parseCarsCSV "a,b\n1,2" = Except.error "Column 'price' not found" ∧
    buildTabularTensors rowsC7 schemaN (4/5) =
      Except.ok (mkOutput rowsC7 schemaN (4/5)) := by
  have h := C8_amended_config_failures "a,b\n1,2" rowsC7 schemaN (4/5)
    (by decide) (by decide)
  exact ⟨h.1, h.2.2 (by decide) (by decide)⟩

/-! ## Claim C10 -/

theorem foldl_stats_skip (step : List (String × ℚ × ℕ) → ℕ →
      List (String × ℚ × ℕ)) (idxs : List ℕ)
    (hstep : ∀ acc, ∀ i ∈ idxs, step acc i = acc) :
    ∀ acc, idxs.foldl step acc = acc := by
  induction idxs with
  | nil => intro acc; rfl
  | cons i rest ih =>
    intro acc
    rw [List.foldl_cons, hstep acc i (List.mem_cons_self _ _)]
    exact ih (fun a j hj => hstep a j (List.mem_cons_of_mem _ hj)) acc

theorem catStats_eq_nil (rows : List Row) (c : String) (idxs : List ℕ)
    (h : ∀ i ∈ idxs, (pricesRawOf rows).getD i none = none) :
    catStats rows c idxs = [] := by
  unfold catStats
  refine foldl_stats_skip _ idxs ?_ []
  intro acc i hi
  simp only [h i hi]

/-- **C10** (implicit): the global training mean's denominator is floored
to 1, so the division is never by zero; when no training row has a finite
raw target, `globalMean = 0` (not `NaN` from `0/0`) and the unknown entry
of every per-fold and full encoding map equals 0. -/
theorem C10_global_mean_total (rows : List Row) (schema : Schema) (frac : ℚ)
    (h : trainPricesOf rows schema frac = []) :
    (0 : ℚ) < ((max 1 (trainPricesOf rows schema frac).length : ℕ) : ℚ) ∧
    globalMeanOf rows schema frac = 0 ∧
    (∀ c f, objGet (encMapsByFoldOf rows schema frac c f) "__UNK__" =
      some 0) ∧
    (∀ c, objGet (fullMapsOf rows schema frac c) "__UNK__" = some 0) := by
  have hall : ∀ i ∈ trIdxOf rows schema frac,
      (pricesRawOf rows).getD i none = none := by
    intro i hi
    exact List.filterMap_eq_nil.mp h i hi
  have hgm : globalMeanOf rows schema frac = 0 := by
    unfold globalMeanOf
    rw [h]
    simp
  refine ⟨?_, hgm, ?_, ?_⟩
  · have : 1 ≤ max 1 (trainPricesOf rows schema frac).length :=
      le_max_left _ _
    exact_mod_cast Nat.lt_of_lt_of_le Nat.zero_lt_one this
  · intro c f
    have hsub : catStats rows c (trFOf rows schema frac f) = [] := by
      refine catStats_eq_nil rows c _ ?_
      intro i hi
      exact hall i (List.mem_of_mem_filter hi)
    unfold encMapsByFoldOf
    rw [hsub, hgm]
    rfl
  · intro c
    have hsub : catStats rows c (trIdxOf rows schema frac) = [] :=
      catStats_eq_nil rows c _ hall
    unfold fullMapsOf
    rw [hsub, hgm]
    rfl

/-- Witness for C10 at a concrete input with no parseable target. -/
theorem C10_global_mean_total_witness :
    globalMeanOf rowsC8 schemaN (4/5) = 0 ∧
    objGet (fullMapsOf rowsC8 schemaN (4/5) "make") "__UNK__" = some 0 := by
  have h := C10_global_mean_total rowsC8 schemaN (4/5) (by decide)
  exact ⟨h.2.1, h.2.2.2 "make"⟩

/-! ## Congruence lemmas: which rows feed which statistic -/

theorem list_foldl_congr {A B : Type} (l : List B) (f g : A → B → A)
    (h : ∀ a : A, ∀ b ∈ l, f a b = g a b) :
    ∀ acc, l.foldl f acc = l.foldl g acc := by
  induction l with
  | nil => intro acc; rfl
  | cons b rest ih =>
    intro acc
    rw [List.foldl_cons, List.foldl_cons, h acc b (List.mem_cons_self _ _)]
    exact ih (fun a x hx => h a x (List.mem_cons_of_mem _ hx)) _

theorem stratifiedSplit_congr (rows₁ rows₂ : List Row) (frac : ℚ) (seed : ℕ)
    (key : String) (hlen : rows₁.length = rows₂.length)
    (hkey : ∀ i, i < rows₁.length →
      rowKey rows₁ key i = rowKey rows₂ key i) :
    stratifiedSplit rows₁ frac seed key =
      stratifiedSplit rows₂ frac seed key := by
  have hg : groupsOf rows₁ key = groupsOf rows₂ key := by
    unfold groupsOf
    rw [← hlen]
    refine list_foldl_congr _ _ _ ?_ []
    intro a i hi
    rw [hkey i (List.mem_range.mp hi)]
  unfold stratifiedSplit
  rw [hg]

theorem pricesRaw_getD (rows : List Row) (i : ℕ) (h : i < rows.length) :
    (pricesRawOf rows).getD i none = numValOf (rows.getD i []) "price" :=
  list_getD_map _ rows i none [] h

theorem catStats_congr (rows₁ rows₂ : List Row) (c : String) (idxs : List ℕ)
    (hlen : rows₁.length = rows₂.length)
    (hmem : ∀ i ∈ idxs, i < rows₁.length)
    (heq : ∀ i ∈ idxs, rows₁.getD i [] = rows₂.getD i []) :
    catStats rows₁ c idxs = catStats rows₂ c idxs := by
  unfold catStats
  refine list_foldl_congr _ _ _ ?_ []
  intro acc i hi
  rw [pricesRaw_getD rows₁ i (hmem i hi),
    pricesRaw_getD rows₂ i (hlen ▸ hmem i hi), heq i hi]

/-- **C1 counterexample**: two inputs with the same partition that agree on
every train row and differ only in the test row's numeric cell, yet whose
imputation medians — and hence robust scaling stats — differ: the medians
are fit on all rows, not exclusively on train indices. -/
theorem C1_leakage_counterexample :
    trIdxOf rowsC1a schemaX (4/5) = trIdxOf rowsC1b schemaX (4/5) ∧
    teIdxOf rowsC1a schemaX (4/5) = teIdxOf rowsC1b schemaX (4/5) ∧
    (trIdxOf rowsC1a schemaX (4/5)).map (fun i => rowsC1a.getD i []) =
      (trIdxOf rowsC1a schemaX (4/5)).map (fun i => rowsC1b.getD i []) ∧
    mediansOf rowsC1a schemaX ≠ mediansOf rowsC1b schemaX ∧
    statsOf rowsC1a schemaX (4/5) ≠ statsOf rowsC1b schemaX (4/5) :=
  ⟨by decide, by decide, by decide, by decide, by decide⟩

/-- **C1 amended**: the winsorization bounds, the global mean and the
per-fold and full-train encoding maps are fit exclusively on train rows —
two inputs of equal length with the same stratification keys that agree on
every train row produce the same split and identical such statistics (the
imputation medians, fit on all rows, and the scaling stats, which consume
them, are exempt — see the counterexample). -/
theorem C1_amended_train_only_stats (rows₁ rows₂ : List Row)
    (schema : Schema) (frac : ℚ) (hlen : rows₁.length = rows₂.length)
    (hkey : ∀ i, i < rows₁.length →
      rowKey rows₁ "make" i = rowKey rows₂ "make" i)
    (htr : ∀ i ∈ trIdxOf rows₁ schema frac,
      rows₁.getD i [] = rows₂.getD i []) :
    trIdxOf rows₁ schema frac = trIdxOf rows₂ schema frac ∧
    teIdxOf rows₁ schema frac = teIdxOf rows₂ schema frac ∧
    pLoOf rows₁ schema frac = pLoOf rows₂ schema frac ∧
    pHiOf rows₁ schema frac = pHiOf rows₂ schema frac ∧
    globalMeanOf rows₁ schema frac = globalMeanOf rows₂ schema frac ∧
    (∀ c f, encMapsByFoldOf rows₁ schema frac c f =
      encMapsByFoldOf rows₂ schema frac c f) ∧
    (∀ c, fullMapsOf rows₁ schema frac c = fullMapsOf rows₂ schema frac c)
    := by
  have hsplit := stratifiedSplit_congr rows₁ rows₂ frac
    (seedsOf schema).split "make" hlen hkey
  have hti : trIdxOf rows₁ schema frac = trIdxOf rows₂ schema frac := by
    unfold trIdxOf; rw [hsplit]
  have hte : teIdxOf rows₁ schema frac = teIdxOf rows₂ schema frac := by
    unfold teIdxOf; rw [hsplit]
  have htp : trainPricesOf rows₁ schema frac =
      trainPricesOf rows₂ schema frac := by
    unfold trainPricesOf
    rw [← hti]
    refine list_filterMap_congr ?_
    intro i hi
    rw [pricesRaw_getD rows₁ i (trIdxOf_mem_lt rows₁ schema frac i hi),
      pricesRaw_getD rows₂ i (hlen ▸ trIdxOf_mem_lt rows₁ schema frac i hi),
      htr i hi]
  have hgm : globalMeanOf rows₁ schema frac =
      globalMeanOf rows₂ schema frac := by
    unfold globalMeanOf; rw [htp]
  have hfolds : foldsOf rows₁ schema frac = foldsOf rows₂ schema frac := by
    unfold foldsOf kfoldShuffledOf; rw [hti]
  have hfoldFn : ∀ i, foldOfFn rows₁ schema frac i =
      foldOfFn rows₂ schema frac i := by
    intro i; unfold foldOfFn; rw [hfolds]
  have htrF : ∀ f, trFOf rows₁ schema frac f = trFOf rows₂ schema frac f := by
    intro f
    unfold trFOf
    rw [← hti]
    refine List.filter_congr ?_
    intro i _
    rw [hfoldFn i]
  refine ⟨hti, hte, by unfold pLoOf; rw [htp], by unfold pHiOf; rw [htp],
    hgm, ?_, ?_⟩
  · intro c f
    unfold encMapsByFoldOf
    rw [hgm, htrF f]
    congr 1
    rw [← htrF f]
    refine catStats_congr rows₁ rows₂ c _ hlen ?_ ?_
    · intro i hi
      exact trIdxOf_mem_lt rows₁ schema frac i (List.mem_of_mem_filter hi)
    · intro i hi
      exact htr i (List.mem_of_mem_filter hi)
  · intro c
    unfold fullMapsOf
    rw [hgm, hti]
    congr 1
    rw [← hti]
    refine catStats_congr rows₁ rows₂ c _ hlen
      (fun i hi => trIdxOf_mem_lt rows₁ schema frac i hi) htr

/-- Witness for C1 amended: across the counterexample pair itself the
train-only statistics coincide. -/
theorem C1_amended_train_only_stats_witness :
    pLoOf rowsC1a schemaX (4/5) = pLoOf rowsC1b schemaX (4/5) ∧
    globalMeanOf rowsC1a schemaX (4/5) =
      globalMeanOf rowsC1b schemaX (4/5) ∧
    (∀ c f, encMapsByFoldOf rowsC1a schemaX (4/5) c f =
      encMapsByFoldOf rowsC1b schemaX (4/5) c f) := by
  have h := C1_amended_train_only_stats rowsC1a rowsC1b schemaX (4/5)
    (by decide) (by decide) (by decide)
  exact ⟨h.2.2.1, h.2.2.2.2.1, h.2.2.2.2.2.1⟩

/-! ## Characterization of the encoding maps (C2) -/

/-- The indices of `idxs` contributing to category `k` of column `c`:
matching key and finite target. -/
def contribIdxs (rows : List Row) (c : String) (idxs : List ℕ)
    (k : String) : List ℕ :=
  idxs.filter (fun j => (catKeyOf (rows.getD j []) c == k) &&
    ((pricesRawOf rows).getD j none).isSome)

/-- The per-category target sum, expressed as the claim states it. -/
def encSum (rows : List Row) (c : String) (idxs : List ℕ) (k : String) :
    ℚ :=
  ((contribIdxs rows c idxs k).filterMap
    (fun j => (pricesRawOf rows).getD j none)).sum

/-- The per-category observation count, as the claim states it. -/
def encCnt (rows : List Row) (c : String) (idxs : List ℕ) (k : String) :
    ℕ :=
  (contribIdxs rows c idxs k).length

/-- Association-list lookup in the accumulated `(sum, count)` stats. -/
def lookupStat (st : List (String × ℚ × ℕ)) (k : String) :
    Option (ℚ × ℕ) :=
  (st.find? (fun p => p.1 == k)).map (fun p => p.2)

theorem lookupStat_bump_self (k : String) (v : ℚ) :
    ∀ st : List (String × ℚ × ℕ),
      lookupStat (bumpStat st k v) k =
        match lookupStat st k with
        | none => some (v, 1)
        | some sn => some (sn.1 + v, sn.2 + 1) := by
  intro st
  induction st with
  | nil => simp [bumpStat, lookupStat]
  | cons p rest ih =>
    obtain ⟨k', s, n⟩ := p
    by_cases h : k' = k
    · simp [bumpStat, lookupStat, h]
    · simp only [bumpStat, beq_iff_eq, h, if_false]
      simp only [lookupStat, List.find?_cons] at ih ⊢
      have hb : (k' == k) = false := by simpa using h
      simp only [hb]
      exact ih

theorem lookupStat_bump_other (k k' : String) (v : ℚ) (hne : k' ≠ k) :
    ∀ st : List (String × ℚ × ℕ),
      lookupStat (bumpStat st k v) k' = lookupStat st k' := by
  intro st
  induction st with
  | nil =>
    simp only [bumpStat, lookupStat, List.find?_cons, List.find?_nil]
    have hb : (k == k') = false := by simpa using fun h => hne h.symm
    simp [hb]
  | cons p rest ih =>
    obtain ⟨k₀, s, n⟩ := p
    by_cases h : k₀ = k
    · have hb : (k₀ == k') = false := by
        simpa using fun hc : k₀ = k' => hne (hc.symm.trans h)
      have hb2 : (k == k') = false := by
        simpa using fun hc : k = k' => hne hc.symm
      simp [bumpStat, lookupStat, h, List.find?_cons, hb, hb2]
    · simp only [bumpStat, beq_iff_eq, h, if_false]
      simp only [lookupStat, List.find?_cons] at ih ⊢
      cases hb : (k₀ == k') with
      | true => simp
      | false => simpa [hb] using ih

/-- The keys of an accumulated stats list. -/
def keysSt (st : List (String × ℚ × ℕ)) : List String :=
  st.map (fun p => p.1)

theorem bumpStat_keys_mem (k : String) (v : ℚ) :
    ∀ st : List (String × ℚ × ℕ), ∀ x ∈ keysSt (bumpStat st k v),
      x ∈ keysSt st ∨ x = k := by
  intro st
  induction st with
  | nil => simp [bumpStat, keysSt]
  | cons p rest ih =>
    obtain ⟨k', s, n⟩ := p
    intro x hx
    by_cases h : k' = k
    · rw [bumpStat, if_pos (by simpa using h)] at hx
      simp only [keysSt, List.map_cons, List.mem_cons] at hx ⊢
      tauto
    · rw [bumpStat, if_neg (by simpa using h)] at hx
      simp only [keysSt, List.map_cons, List.mem_cons] at hx ⊢
      rcases hx with hx | hx
      · tauto
      · rcases ih x (by simpa [keysSt] using hx) with h2 | h2
        · exact Or.inl (Or.inr (by simpa [keysSt] using h2))
        · exact Or.inr h2

theorem bumpStat_keys_nodup (k : String) (v : ℚ) :
    ∀ st : List (String × ℚ × ℕ), (keysSt st).Nodup →
      (keysSt (bumpStat st k v)).Nodup := by
  intro st
  induction st with
  | nil => simp [bumpStat, keysSt]
  | cons p rest ih =>
    obtain ⟨k', s, n⟩ := p
    intro hnd
    simp only [keysSt, List.map_cons, List.nodup_cons] at hnd
    by_cases h : k' = k
    · rw [bumpStat, if_pos (by simpa using h)]
      simp only [keysSt, List.map_cons, List.nodup_cons]
      exact ⟨by simpa [keysSt, h] using hnd.1, hnd.2⟩
    · rw [bumpStat, if_neg (by simpa using h)]
      simp only [keysSt, List.map_cons, List.nodup_cons]
      refine ⟨fun hc => ?_, ih hnd.2⟩
      rcases bumpStat_keys_mem k v rest k' (by simpa [keysSt] using hc)
        with h2 | h2
      · exact hnd.1 (by simpa [keysSt] using h2)
      · exact h h2

theorem catStats_keys_nodup (rows : List Row) (c : String) :
    ∀ (idxs : List ℕ) (acc : List (String × ℚ × ℕ)),
      (keysSt acc).Nodup →
      (keysSt (idxs.foldl (fun acc i =>
        match (pricesRawOf rows).getD i none with
        | none => acc
        | some yv => bumpStat acc (catKeyOf (rows.getD i []) c) yv)
          acc)).Nodup := by
  intro idxs
  induction idxs with
  | nil => intro acc h; simpa using h
  | cons i rest ih =>
    intro acc h
    rw [List.foldl_cons]
    cases hpi : (pricesRawOf rows).getD i none with
    | none => simp only [hpi]; exact ih acc h
    | some yv =>
      simp only [hpi]
      exact ih _ (bumpStat_keys_nodup _ yv acc h)

theorem contribIdxs_cons_skip (rows : List Row) (c : String) (i : ℕ)
    (rest : List ℕ) (k : String)
    (h : ((catKeyOf (rows.getD i []) c == k) &&
      ((pricesRawOf rows).getD i none).isSome) = false) :
    contribIdxs rows c (i :: rest) k = contribIdxs rows c rest k := by
  unfold contribIdxs
  rw [List.filter_cons, h]
  simp

theorem contribIdxs_cons_take (rows : List Row) (c : String) (i : ℕ)
    (rest : List ℕ) (k : String)
    (h : ((catKeyOf (rows.getD i []) c == k) &&
      ((pricesRawOf rows).getD i none).isSome) = true) :
    contribIdxs rows c (i :: rest) k = i :: contribIdxs rows c rest k := by
  unfold contribIdxs
  rw [List.filter_cons, h]
  simp

theorem catStats_lookup_aux (rows : List Row) (c : String) :
    ∀ (idxs : List ℕ) (acc : List (String × ℚ × ℕ)) (k : String),
      lookupStat (idxs.foldl (fun acc i =>
        match (pricesRawOf rows).getD i none with
        | none => acc
        | some yv => bumpStat acc (catKeyOf (rows.getD i []) c) yv) acc) k =
      match lookupStat acc k with
      | some sn => some (sn.1 + encSum rows c idxs k,
          sn.2 + encCnt rows c idxs k)
      | none =>
        if encCnt rows c idxs k = 0 then none
        else some (encSum rows c idxs k, encCnt rows c idxs k) := by
  intro idxs
  induction idxs with
  | nil =>
    intro acc k
    simp only [List.foldl_nil, encSum, encCnt, contribIdxs, List.filter_nil,
      List.filterMap_nil, List.sum_nil, List.length_nil]
    cases lookupStat acc k with
    | none => simp
    | some sn => simp
  | cons i rest ih =>
    intro acc k
    rw [List.foldl_cons]
    cases hpi : (pricesRawOf rows).getD i none with
    | none =>
      simp only [hpi]
      rw [ih acc k]
      have hc := contribIdxs_cons_skip rows c i rest k
        (by rw [hpi]; simp)
      simp only [encSum, encCnt, hc]
    | some yv =>
      simp only [hpi]
      by_cases hk : catKeyOf (rows.getD i []) c = k
      · have hc := contribIdxs_cons_take rows c i rest k
          (by rw [hpi]
              simp only [Option.isSome_some, Bool.and_true]
              exact beq_iff_eq.mpr hk)
        have hsum : encSum rows c (i :: rest) k =
            yv + encSum rows c rest k := by
          simp only [encSum, hc, List.filterMap_cons, hpi, List.sum_cons]
        have hcnt : encCnt rows c (i :: rest) k =
            1 + encCnt rows c rest k := by
          simp only [encCnt, hc, List.length_cons]
          omega
        rw [ih _ k, hk, lookupStat_bump_self k yv acc, hsum, hcnt]
        cases hacc : lookupStat acc k with
        | none =>
          simp only
          rw [if_neg (by omega)]
        | some sn =>
          simp only
          congr 2
          · ring
          · omega
      · have hc := contribIdxs_cons_skip rows c i rest k
          (by rw [hpi]
              simp only [Option.isSome_some, Bool.and_true,
                beq_eq_false_iff_ne, ne_eq]
              exact hk)
        rw [ih _ k, lookupStat_bump_other _ _ yv (fun h => hk h.symm) acc]
        simp only [encSum, encCnt, hc]

theorem catStats_lookup (rows : List Row) (c : String) (idxs : List ℕ)
    (k : String) :
    lookupStat (catStats rows c idxs) k =
      if encCnt rows c idxs k = 0 then none
      else some (encSum rows c idxs k, encCnt rows c idxs k) := by
  have h := catStats_lookup_aux rows c idxs [] k
  simpa [catStats, lookupStat] using h

theorem catStats_nodup_keys (rows : List Row) (c : String)
    (idxs : List ℕ) : (keysSt (catStats rows c idxs)).Nodup := by
  have h := catStats_keys_nodup rows c idxs [] (by simp [keysSt])
  simpa [catStats] using h

theorem find?_reverse_nodup {β : Type} (k : String) :
    ∀ l : List (String × β), (l.map (fun p => p.1)).Nodup →
      l.reverse.find? (fun p => p.1 == k) = l.find? (fun p => p.1 == k) := by
  intro l
  induction l with
  | nil => simp
  | cons p rest ih =>
    intro hnd
    simp only [List.map_cons, List.nodup_cons] at hnd
    rw [List.reverse_cons, List.find?_append, List.find?_cons]
    cases hb : (p.1 == k) with
    | true =>
      have hk : p.1 = k := beq_iff_eq.mp hb
      have hnone : rest.find? (fun q => q.1 == k) = none := by
        rw [List.find?_eq_none]
        intro x hx hc
        exact hnd.1 (by
          rw [hk, ← beq_iff_eq.mp hc]
          exact List.mem_map_of_mem (fun p => p.1) hx)
      have hnone' : rest.reverse.find? (fun q => q.1 == k) = none := by
        rw [List.find?_eq_none] at hnone ⊢
        intro x hx
        exact hnone x (List.mem_reverse.mp hx)
      simp [hnone', hb]
    | false =>
      rw [ih hnd.2]
      cases hf : rest.find? (fun q => q.1 == k) with
      | none => simp [hb, hf, Option.orElse, List.find?_cons]
      | some q => simp [hb, hf, Option.orElse, List.find?_cons]

theorem objGet_mkEncMap (gm : ℚ) (st : List (String × ℚ × ℕ))
    (hnd : (keysSt st).Nodup) (k : String) :
    objGet (mkEncMap gm st) k =
      match lookupStat st k with
      | some sn => some (smoothed sn.1 sn.2 gm 10)
      | none => if k = "__UNK__" then some gm else none := by
  unfold objGet mkEncMap
  rw [List.reverse_cons]
  rw [List.find?_append]
  have hmapnd : ((st.map (fun t => (t.1, smoothed t.2.1 t.2.2 gm 10))).map
      (fun p => p.1)).Nodup := by
    simpa [List.map_map, Function.comp, keysSt] using hnd
  rw [find?_reverse_nodup k _ hmapnd]
  rw [List.find?_map]
  have hpred : ((fun p : String × ℚ => p.1 == k) ∘
      (fun t : String × ℚ × ℕ => (t.1, smoothed t.2.1 t.2.2 gm 10))) =
      (fun p : String × ℚ × ℕ => p.1 == k) := rfl
  rw [hpred]
  unfold lookupStat
  cases hf : st.find? (fun p => p.1 == k) with
  | none =>
    by_cases hk : k = "__UNK__"
    · subst hk
      simp [Option.orElse, List.find?_cons]
    · have hb : ("__UNK__" == k) = false := by
        simpa using fun hc : "__UNK__" = k => hk hc.symm
      simp [Option.orElse, List.find?_cons, hb, hk]
  | some t =>
    simp [hf, Option.orElse]

/-! ## Claim C2 -/

/-- **C2 counterexample**: when the literal category value `__UNK__` occurs
in a training row (here: fold-complement row 1, `make = "__UNK__"`, finite
price), the per-fold map's unknown entry is overwritten by that category's
smoothed statistic, so it does not equal the global mean as claimed. -/
theorem C2_unknown_entry_counterexample :
    foldOfFn rowsC2u schemaN (4/5) 0 = some 0 ∧
    trFOf rowsC2u schemaN (4/5) 0 = [1] ∧
    catKeyOf (rowsC2u.getD 1 []) "make" = "__UNK__" ∧
    objGet (encMapsByFoldOf rowsC2u schemaN (4/5) "make" 0) "__UNK__" ≠
      some (globalMeanOf rowsC2u schemaN (4/5)) :=
  ⟨by decide, by decide, by decide, by decide⟩

/-- **C2 amended** (out-of-fold target encoding): for a training row `i` of
fold `f` and an encoded column, the fold-`f` map is fit only on training
rows of other folds: row `i` is excluded, every contributing row's fold
differs from `f`, and the map depends only on the cells of those rows.
Each category's entry is `smoothed = (sum + 10·globalMean)/(count + 10)`
over those rows' raw targets; the unknown entry equals `globalMean`
*unless* the literal category `__UNK__` occurs among the contributing rows
(see the counterexample); and row `i`'s encoded value is the lookup of its
category in that fold-`f` map, falling back to the unknown entry. -/
theorem C2_amended_out_of_fold_encoding (rows : List Row) (schema : Schema)
    (frac : ℚ) (i f : ℕ) (c : String) (hc : c ∈ encCols)
    (hf : foldOfFn rows schema frac i = some f) :
    i ∉ trFOf rows schema frac f ∧
    (∀ j ∈ trFOf rows schema frac f,
      foldOfFn rows schema frac j ≠ some f) ∧
    (∀ rows' : List Row, rows'.length = rows.length →
      (∀ j ∈ trFOf rows schema frac f, rows.getD j [] = rows'.getD j []) →
      catStats rows c (trFOf rows schema frac f) =
        catStats rows' c (trFOf rows schema frac f)) ∧
    (∀ k, k ≠ "__UNK__" →
      objGet (encMapsByFoldOf rows schema frac c f) k =
        (if encCnt rows c (trFOf rows schema frac f) k = 0 then none
         else some (smoothed (encSum rows c (trFOf rows schema frac f) k)
           (encCnt rows c (trFOf rows schema frac f) k)
           (globalMeanOf rows schema frac) 10))) ∧
    (encCnt rows c (trFOf rows schema frac f) "__UNK__" = 0 →
      objGet (encMapsByFoldOf rows schema frac c f) "__UNK__" =
        some (globalMeanOf rows schema frac)) ∧
    encValue rows schema frac i c =
      (objGet (encMapsByFoldOf rows schema frac c f)
        (catKeyOf (rows.getD i []) c)).getD
        ((objGet (encMapsByFoldOf rows schema frac c f) "__UNK__").getD 0)
    := by
  refine ⟨?_, ?_, ?_, ?_, ?_, ?_⟩
  · intro hmem
    have hpred := (List.mem_filter.mp hmem).2
    exact of_decide_eq_true hpred hf
  · intro j hj
    exact of_decide_eq_true (List.mem_filter.mp hj).2
  · intro rows' hlen' heq
    refine catStats_congr rows rows' c _ hlen'.symm ?_ heq
    intro j hj
    exact trIdxOf_mem_lt rows schema frac j (List.mem_of_mem_filter hj)
  · intro k hk
    unfold encMapsByFoldOf
    rw [objGet_mkEncMap _ _ (catStats_nodup_keys rows c _) k,
      catStats_lookup]
    by_cases hz : encCnt rows c (trFOf rows schema frac f) k = 0
    · simp [hz, hk]
    · simp [hz]
  · intro h0
    unfold encMapsByFoldOf
    rw [objGet_mkEncMap _ _ (catStats_nodup_keys rows c _) _,
      catStats_lookup]
    simp [h0]
  · simp only [encValue, hf]

/-- Witness for C2 amended at a concrete input (row 4 is in fold 0). -/
theorem C2_amended_out_of_fold_encoding_witness :
    (4 : ℕ) ∉ trFOf rowsC7 schemaN (4/5) 0 ∧
    encValue rowsC7 schemaN (4/5) 4 "make" =
      (objGet (encMapsByFoldOf rowsC7 schemaN (4/5) "make" 0)
        (catKeyOf (rowsC7.getD 4 []) "make")).getD
        ((objGet (encMapsByFoldOf rowsC7 schemaN (4/5) "make" 0)
          "__UNK__").getD 0) := by
  have h := C2_amended_out_of_fold_encoding rowsC7 schemaN (4/5) 4 0 "make"
    (by decide) (by decide)
  exact ⟨h.1, h.2.2.2.2.2⟩

/-! ## Sorting and median lemmas (C6) -/

theorem sortQ_perm (l : List ℚ) : (sortQ l).Perm l :=
  List.perm_insertionSort _ l

theorem sortQ_sorted (l : List ℚ) : List.Sorted (· ≤ ·) (sortQ l) :=
  List.sorted_insertionSort _ l

theorem sortQ_ne_nil (l : List ℚ) (h : l ≠ []) : sortQ l ≠ [] := by
  intro hc
  exact h (List.Perm.eq_nil ((sortQ_perm l).symm.trans (hc ▸ List.Perm.refl _)))

theorem sortQ_map_mono (l : List ℚ) (f : ℚ → ℚ)
    (hf : ∀ a b : ℚ, a ≤ b → f a ≤ f b) :
    sortQ (l.map f) = (sortQ l).map f := by
  have hperm : (sortQ (l.map f)).Perm ((sortQ l).map f) :=
    (sortQ_perm (l.map f)).trans ((sortQ_perm l).symm.map f)
  have hs1 : List.Sorted (· ≤ ·) (sortQ (l.map f)) := sortQ_sorted _
  have hs2 : List.Sorted (· ≤ ·) ((sortQ l).map f) :=
    List.Pairwise.map f (fun a b hab => hf a b hab) (sortQ_sorted l)
  exact List.eq_of_perm_of_sorted hperm hs1 hs2

theorem list_getD_nonneg (s : List ℚ) (j : ℕ) (h : ∀ x ∈ s, 0 ≤ x) :
    0 ≤ s.getD j 0 := by
  by_cases hj : j < s.length
  · rw [List.getD_eq_getElem?_getD, List.getElem?_eq_getElem hj]
    exact h _ (List.getElem_mem hj)
  · rw [List.getD_eq_getElem?_getD, List.getElem?_eq_none (by omega)]
    simp

theorem medianSorted_nonneg (s : List ℚ) (h : ∀ x ∈ s, 0 ≤ x) :
    0 ≤ medianSorted s := by
  unfold medianSorted
  by_cases hp : s.length % 2 = 1
  · simpa [hp] using list_getD_nonneg s _ h
  · simp only [hp, if_false]
    have h1 := list_getD_nonneg s (s.length / 2 - 1) h
    have h2 := list_getD_nonneg s (s.length / 2) h
    positivity

theorem list_getD_const (s : List ℚ) (v : ℚ) (j : ℕ)
    (h : ∀ x ∈ s, x = v) (hj : j < s.length) : s.getD j 0 = v := by
  rw [List.getD_eq_getElem?_getD, List.getElem?_eq_getElem hj]
  exact h _ (List.getElem_mem hj)

theorem medianSorted_const (s : List ℚ) (v : ℚ) (h : ∀ x ∈ s, x = v)
    (hne : s ≠ []) : medianSorted s = v := by
  have hlen : 1 ≤ s.length := List.length_pos.mpr hne
  unfold medianSorted
  by_cases hp : s.length % 2 = 1
  · rw [if_pos hp]
    exact list_getD_const s v _ h (by omega)
  · rw [if_neg hp]
    have he : s.length % 2 = 0 := by omega
    have h2 : 2 ≤ s.length := by omega
    rw [list_getD_const s v _ h (by omega), list_getD_const s v _ h (by omega)]
    ring

theorem medianSorted_map_affine (s : List ℚ) (m sc : ℚ) (hsc : sc ≠ 0)
    (hne : s ≠ []) :
    medianSorted (s.map (fun x => (x - m) / sc)) =
      (medianSorted s - m) / sc := by
  have hlen : 1 ≤ s.length := List.length_pos.mpr hne
  unfold medianSorted
  rw [List.length_map]
  by_cases hp : s.length % 2 = 1
  · rw [if_pos hp, if_pos hp]
    rw [list_getD_map _ s _ 0 0 (by omega)]
  · rw [if_neg hp, if_neg hp]
    have h2 : 2 ≤ s.length := by omega
    rw [list_getD_map _ s _ 0 0 (by omega), list_getD_map _ s _ 0 0 (by omega)]
    field_simp
    ring

theorem robustStats_median_def (arr : List ℚ) :
    (robustStats arr).median = medianQ arr := rfl

theorem robustStats_scale_pos (arr : List ℚ) :
    0 < (robustStats arr).scale := by
  unfold robustStats
  simp only
  set med := medianSorted (sortQ arr) with hm
  have hmad : 0 ≤ medianSorted (sortQ ((sortQ arr).map
      (fun x => |x - med|))) := by
    refine medianSorted_nonneg _ ?_
    intro x hx
    have hx2 : x ∈ (sortQ arr).map (fun x => |x - med|) :=
      (sortQ_perm _).mem_iff.mp hx
    obtain ⟨y, _, rfl⟩ := List.mem_map.mp hx2
    positivity
  by_cases hz : (14826 / 10000 : ℚ) * medianSorted (sortQ ((sortQ arr).map
      (fun x => |x - med|))) = 0
  · simp only [hz, if_true]
    norm_num
  · simp only [hz, if_false]
    rcases lt_or_eq_of_le hmad with hlt | heq
    · positivity
    · exact absurd (by rw [← heq]; ring) hz

theorem robustStats_const (arr : List ℚ) (v : ℚ) (h : ∀ x ∈ arr, x = v)
    (hne : arr ≠ []) : (robustStats arr).scale = 1 := by
  unfold robustStats
  simp only
  have hsconst : ∀ x ∈ sortQ arr, x = v := by
    intro x hx
    exact h x ((sortQ_perm arr).mem_iff.mp hx)
  have hmed : medianSorted (sortQ arr) = v :=
    medianSorted_const _ v hsconst (sortQ_ne_nil arr hne)
  have habs : ∀ x ∈ sortQ ((sortQ arr).map
      (fun x => |x - medianSorted (sortQ arr)|)), x = 0 := by
    intro x hx
    have hx2 := (sortQ_perm _).mem_iff.mp hx
    obtain ⟨y, hy, rfl⟩ := List.mem_map.mp hx2
    rw [hmed, hsconst y hy]
    simp
  have hnn : sortQ ((sortQ arr).map
      (fun x => |x - medianSorted (sortQ arr)|)) ≠ [] := by
    refine sortQ_ne_nil _ ?_
    simp only [ne_eq, List.map_eq_nil_iff]
    exact sortQ_ne_nil arr hne
  rw [medianSorted_const _ 0 habs hnn]
  norm_num

/-! ## Width and indexing plumbing for the scaled matrix (C6) -/

theorem rawNumOf_getD_length (rows : List Row) (schema : Schema) (i : ℕ)
    (h : i < rows.length) :
    ((rawNumOf rows schema).getD i []).length = schema.numCols.length := by
  unfold rawNumOf
  rw [list_getD_map _ rows i [] [] h]
  simp

theorem mediansOf_length (rows : List Row) (schema : Schema) :
    (mediansOf rows schema).length = schema.numCols.length := by
  unfold mediansOf
  simp

theorem XnumOf_getD_length (rows : List Row) (schema : Schema) (i : ℕ)
    (h : i < rows.length) :
    ((XnumOf rows schema).getD i []).length = schema.numCols.length := by
  unfold XnumOf
  rw [list_getD_map _ _ i [] []
    (by simpa [rawNumOf] using h)]
  rw [List.length_zipWith, rawNumOf_getD_length rows schema i h,
    mediansOf_length]
  omega

theorem XnumPlusOf_getD (rows : List Row) (schema : Schema) (frac : ℚ)
    (i : ℕ) (h : i < rows.length) :
    (XnumPlusOf rows schema frac).getD i [] =
      (XnumOf rows schema).getD i [] ++
        encCols.map (fun c => encValue rows schema frac i c) := by
  unfold XnumPlusOf
  exact list_getD_range_map _ rows.length i [] h

theorem XnumPlusOf_getD_length (rows : List Row) (schema : Schema)
    (frac : ℚ) (i : ℕ) (h : i < rows.length) :
    ((XnumPlusOf rows schema frac).getD i []).length =
      schema.numCols.length + 7 := by
  rw [XnumPlusOf_getD rows schema frac i h, List.length_append,
    XnumOf_getD_length rows schema i h]
  rfl

theorem numInputDimOf_eq (rows : List Row) (schema : Schema) (frac : ℚ)
    (h : rows ≠ []) :
    numInputDimOf rows schema frac = schema.numCols.length + 7 := by
  have hlen : (XnumPlusOf rows schema frac).length = rows.length := by
    unfold XnumPlusOf
    simp
  have hn : 0 < rows.length := List.length_pos.mpr h
  have hne : XnumPlusOf rows schema frac ≠ [] := by
    intro hc
    rw [hc] at hlen
    simp at hlen
    omega
  unfold numInputDimOf
  cases hx : XnumPlusOf rows schema frac with
  | nil => exact absurd hx hne
  | cons r rest =>
    have : (XnumPlusOf rows schema frac).getD 0 [] = r := by rw [hx]; rfl
    rw [List.headD_cons, ← this]
    rw [XnumPlusOf_getD_length rows schema frac 0 hn]

theorem statsOf_length (rows : List Row) (schema : Schema) (frac : ℚ) :
    (statsOf rows schema frac).length = numInputDimOf rows schema frac := by
  unfold statsOf
  simp

theorem statsOf_getD (rows : List Row) (schema : Schema) (frac : ℚ)
    (j : ℕ) (hj : j < numInputDimOf rows schema frac) :
    (statsOf rows schema frac).getD j ⟨0, 1⟩ =
      robustStats ((trainNumOf rows schema frac).map
        (fun r => r.getD j 0)) := by
  unfold statsOf
  exact list_getD_range_map _ _ j (⟨0, 1⟩ : RStats) hj

theorem XnumScaledOf_getD (rows : List Row) (schema : Schema) (frac : ℚ)
    (i : ℕ) (h : i < rows.length) :
    (XnumScaledOf rows schema frac).getD i [] =
      ((XnumPlusOf rows schema frac).getD i []).zipWith
        (fun x st => (x - st.median) / st.scale)
        (statsOf rows schema frac) := by
  unfold XnumScaledOf
  refine list_getD_map _ _ i [] [] ?_
  unfold XnumPlusOf
  simpa using h

theorem XnumScaled_entry (rows : List Row) (schema : Schema) (frac : ℚ)
    (i j : ℕ) (hrows : rows ≠ []) (hi : i < rows.length)
    (hj : j < numInputDimOf rows schema frac) :
    ((XnumScaledOf rows schema frac).getD i []).getD j 0 =
      (((XnumPlusOf rows schema frac).getD i []).getD j 0 -
        ((statsOf rows schema frac).getD j ⟨0, 1⟩).median) /
        ((statsOf rows schema frac).getD j ⟨0, 1⟩).scale := by
  rw [XnumScaledOf_getD rows schema frac i hi]
  refine list_getD_zipWith _ _ _ j 0 0 (⟨0, 1⟩ : RStats) ?_ ?_
  · rw [XnumPlusOf_getD_length rows schema frac i hi]
    rw [numInputDimOf_eq rows schema frac hrows] at hj
    exact hj
  · rw [statsOf_length]
    exact hj

theorem trainCol_eq (rows : List Row) (schema : Schema) (frac : ℚ)
    (j : ℕ) :
    (trainNumOf rows schema frac).map (fun r => r.getD j 0) =
      (trIdxOf rows schema frac).map
        (fun i => ((XnumPlusOf rows schema frac).getD i []).getD j 0) := by
  unfold trainNumOf
  rw [List.map_map]
  rfl

/-! ## Claim C6 -/

/-- **C6** (robust scaling): each output column's `(median, scale)` is fit
from the train rows of the widened matrix only, with the interpolated
rank-based median and `scale = 1.4826·MAD` floored to `1` when zero (so
the scale is always positive and the transform never divides by zero);
consequently the median of the scaled training values of any column is `0`
within `1e-6` (here: exactly `0` in exact arithmetic), and a constant
training column gets scale exactly `1`. -/
theorem C6_robust_scaling (rows : List Row) (schema : Schema) (frac : ℚ)
    (j : ℕ) (hrows : rows ≠ [])
    (hj : j < numInputDimOf rows schema frac) :
    (statsOf rows schema frac).getD j (⟨0, 1⟩ : RStats) =
      robustStats ((trainNumOf rows schema frac).map
        (fun r => r.getD j 0)) ∧
    0 < ((statsOf rows schema frac).getD j (⟨0, 1⟩ : RStats)).scale ∧
    |medianQ ((trIdxOf rows schema frac).map
      (fun i => ((XnumScaledOf rows schema frac).getD i []).getD j 0))| ≤
      1 / 1000000 ∧
    (∀ v : ℚ, (∀ x ∈ (trainNumOf rows schema frac).map
        (fun r => r.getD j 0), x = v) →
      ((statsOf rows schema frac).getD j (⟨0, 1⟩ : RStats)).scale = 1) := by
  have hstat := statsOf_getD rows schema frac j hj
  set col := (trainNumOf rows schema frac).map (fun r => r.getD j 0)
    with hcol
  have hcolne : col ≠ [] := by
    rw [hcol]
    simp only [ne_eq, List.map_eq_nil_iff]
    unfold trainNumOf
    simp only [List.map_eq_nil_iff]
    exact trIdxOf_ne_nil rows schema frac hrows
  refine ⟨hstat, by rw [hstat]; exact robustStats_scale_pos col, ?_, ?_⟩
  · have hscpos : 0 < (robustStats col).scale := robustStats_scale_pos col
    have hmap : (trIdxOf rows schema frac).map
        (fun i => ((XnumScaledOf rows schema frac).getD i []).getD j 0) =
        col.map (fun x => (x - (robustStats col).median) /
          (robustStats col).scale) := by
      rw [hcol, trainCol_eq, List.map_map]
      refine List.map_congr_left ?_
      intro i hi
      have hin := trIdxOf_mem_lt rows schema frac i hi
      simp only [Function.comp]
      rw [XnumScaled_entry rows schema frac i j hrows hin hj, hstat,
        hcol, trainCol_eq]
    rw [hmap]
    have hmono : ∀ a b : ℚ, a ≤ b →
        (a - (robustStats col).median) / (robustStats col).scale ≤
        (b - (robustStats col).median) / (robustStats col).scale := by
      intro a b hab
      rw [div_eq_mul_inv, div_eq_mul_inv]
      exact mul_le_mul_of_nonneg_right
        (sub_le_sub_right hab (robustStats col).median)
        (inv_nonneg.mpr hscpos.le)
    unfold medianQ
    rw [sortQ_map_mono col _ hmono,
      medianSorted_map_affine _ _ _ (ne_of_gt hscpos)
        (sortQ_ne_nil col hcolne)]
    have hm : medianSorted (sortQ col) = (robustStats col).median := rfl
    rw [hm]
    simp only [sub_self, zero_div, abs_zero]
    norm_num
  · intro v hv
    rw [hstat]
    exact robustStats_const col v hv hcolne

/-- Witness for C6 at a concrete input and column 0. -/
theorem C6_robust_scaling_witness :
    0 < ((statsOf rowsC1a schemaX (4/5)).getD 0 (⟨0, 1⟩ : RStats)).scale ∧
    |medianQ ((trIdxOf rowsC1a schemaX (4/5)).map
      (fun i => ((XnumScaledOf rowsC1a schemaX (4/5)).getD i []).getD 0
        0))| ≤ 1 / 1000000 := by
  have h := C6_robust_scaling rowsC1a schemaX (4/5) 0 (by decide) (by decide)
  exact ⟨h.2.1, h.2.2.1⟩

/-! ## Claim C7 -/

/-- **C7 counterexample**: the filtered test index list of a concrete
input is `[3, 2]` — per-group shuffled remainders in group order, not the
ascending original row order — and the test target array follows that
non-ascending order. -/
theorem C7_test_order_counterexample :
    teFinalOf rowsC7 schemaN (4/5) = [3, 2] ∧
    (mkOutput rowsC7 schemaN (4/5)).yTest = [some 40, some 30] ∧
    (mkOutput rowsC7 schemaN (4/5)).yTest ≠ [some 30, some 40] :=
  ⟨by decide, by decide, by decide⟩

/-- **C7 amended** (output ordering): the train arrays are presented in
the order of one DSG permutation (dedicated `trainOrder` seed) of the
filtered train index list — a permutation of that list — while the test
arrays follow the splitter's test index list (per-group shuffled
remainders, concatenated in group order) filtered for valid targets, with
no reshuffle; that order need not be ascending original row index (see
the counterexample). -/
theorem C7_amended_output_ordering (rows : List Row) (schema : Schema)
    (frac : ℚ) :
    (mkOutput rows schema frac).XnumTrain =
      (shuffleWithSeed (trFinalOf rows schema frac)
        (seedsOf schema).trainOrder).map
        (fun i => (XnumScaledOf rows schema frac).getD i []) ∧
    (mkOutput rows schema frac).yTrain =
      (shuffleWithSeed (trFinalOf rows schema frac)
        (seedsOf schema).trainOrder).map
        (fun i => (yLogOf rows schema frac).getD i none) ∧
    (trainOrderOf rows schema frac).Perm (trFinalOf rows schema frac) ∧
    trFinalOf rows schema frac = (trIdxOf rows schema frac).filter
      (fun i => (validOf rows schema frac).contains i) ∧
    (mkOutput rows schema frac).XnumTest =
      (teFinalOf rows schema frac).map
        (fun i => (XnumScaledOf rows schema frac).getD i []) ∧
    (mkOutput rows schema frac).yTest =
      (teFinalOf rows schema frac).map
        (fun i => (yLogOf rows schema frac).getD i none) ∧
    teFinalOf rows schema frac = (teIdxOf rows schema frac).filter
      (fun i => (validOf rows schema frac).contains i) :=
  ⟨rfl, rfl, shuffleWithSeed_perm _ _, rfl, rfl, rfl, rfl⟩
